import Mathlib

/-!
Verification development for the `Cryptoanalysis_lab_2` repository.

The Python sources are shallowly embedded as Lean definitions:

* Python strings are `List Char`; integers are `ℤ`/`ℕ`; floats are modelled
  as exact rationals `ℚ` (the algorithms under study are decision procedures
  over ratios and counts, not numerically sensitive computations).
* Python `%` and `//` on integers are floor-mod and floor-div, i.e.
  `Int.fmod` and `Int.fdiv`.
* Fallible code (functions that can raise `ValueError`, `KeyError`,
  `IndexError`, `ZeroDivisionError`) is embedded in `Except String`.
  Error strings mirror the Python messages (the `repr` quotes around an
  offending character are omitted; the character itself is kept).
* Python dicts are association lists in insertion order with
  overwrite-on-repeated-key semantics (`dictSet` / `dictGet?`).
* `sorted(...)` is embedded as a stable sort (`List.insertionSort`), which
  computes the same function as Python's stable Timsort for the total
  comparators used by this repository.
* `math.log2` (a transcendental float function) and the external `lzma` /
  `zlib` / `bz2` compressors are not repository code; they enter the
  embedding as function parameters of the definitions that use them.
-/

/-- Python `ValueError` raised by `list.index` when the element is absent;
the message names the offending element, as CPython's does. -/
def notInListMsg (c : Char) : String :=
  "ValueError: " ++ String.singleton c ++ " is not in list"

/-- Python `ZeroDivisionError` message. -/
def zeroDivisionMsg : String := "ZeroDivisionError: division by zero"

/-- Python `IndexError` message. -/
def indexErrorMsg : String := "IndexError: index out of range"

/-- Message of the `ValueError` raised by `ciphers/affine.py` when `a` is not
coprime with the alphabet length. -/
def coprimeErrMsg (a m : ℤ) : String :=
  "ValueError: a=" ++ toString a ++ " must be coprime with the alphabet length m=" ++ toString m

/-- Message of the `ValueError` raised by `ciphers/affine_bigram.py` when `a`
is not coprime with the squared alphabet length. -/
def coprimeSqErrMsg (a nmod : ℤ) : String :=
  "ValueError: a=" ++ toString a ++ " must be coprime with m^2=" ++ toString nmod

/-- Message of the `ValueError` raised by `ciphers/affine_bigram.py` on a
character missing from the alphabet (converted from the dict `KeyError`). -/
def bigramCharMsg (c : Char) : String :=
  "ValueError: Character " ++ String.singleton c ++ " not in alphabet"

/-- Message of the `ValueError` raised by `ciphers/affine_bigram.py` when the
padding character is not in the alphabet. -/
def padCharErrMsg : String :=
  "ValueError: pad_char must be a character from _alphabet"

/-- Message of the `ValueError` raised when a non-overlapping-mode ciphertext
has odd length. -/
def oddLenErrMsg : String :=
  "ValueError: Ciphertext length must be even in non-overlapping mode"

/-- Python `list.index`: the index of the first occurrence, or a `ValueError`
naming the element when absent. -/
def pyIndex (l : List Char) (c : Char) : Except String ℕ :=
  if c ∈ l then .ok (List.indexOf c l) else .error (notInListMsg c)

/-- Python dict assignment `d[k] = v` on an insertion-ordered association
list: overwrite the existing binding in place, else append. -/
def dictSet {κ ν : Type} [DecidableEq κ] : List (κ × ν) → κ → ν → List (κ × ν)
  | [], k, v => [(k, v)]
  | (k0, v0) :: rest, k, v =>
      if k0 = k then (k0, v) :: rest else (k0, v0) :: dictSet rest k v

/-- Python dict lookup `d.get(k)` on an association list. -/
def dictGet? {κ ν : Type} [DecidableEq κ] : List (κ × ν) → κ → Option ν
  | [], _ => none
  | (k0, v0) :: rest, k => if k0 = k then some v0 else dictGet? rest k

/-- Python dict lookup with default, `d.get(k, dflt)`. -/
def dictGetD {κ ν : Type} [DecidableEq κ] (d : List (κ × ν)) (k : κ) (dflt : ν) : ν :=
  (dictGet? d k).getD dflt

/-- Fuel-indexed extended Euclid.  The Python original recurses on
`(b % a, a)`; the fuel is an explicit termination bound (any fuel exceeding
`a.natAbs` yields the same value, see `egcdF_fuel_irrel`). -/
def egcdF : ℕ → ℤ → ℤ → ℤ × ℤ × ℤ
  | 0, _, b => (b, 0, 1)
  | fuel + 1, a, b =>
      if a = 0 then (b, 0, 1)
      else
        let r := egcdF fuel (b.fmod a) a
        (r.1, r.2.2 - (b.fdiv a) * r.2.1, r.2.1)

/-- Embedding of `euclidean_algorithm_extended(a, b)` from `helper.py` (the
same function is duplicated in `ciphers/affine.py` and
`ciphers/affine_bigram.py`): returns `(gcd, x, y)` with `a*x + b*y = gcd`. -/
def euclidean_algorithm_extended (a b : ℤ) : ℤ × ℤ × ℤ :=
  egcdF (a.natAbs + 1) a b

/-- Floor-mod of naturals cast to `ℤ` agrees with the natural mod. -/
theorem fmod_natCast (n m : ℕ) : ((n : ℤ)).fmod (m : ℤ) = ((n % m : ℕ) : ℤ) := by
  rcases Nat.eq_zero_or_pos m with h | h
  · subst h; simp [Int.fmod_zero]
  · rw [Int.fmod_eq_emod _ (by positivity)]; omega

/-- Floor-div of naturals cast to `ℤ` agrees with the natural division. -/
theorem fdiv_natCast (n m : ℕ) : ((n : ℤ)).fdiv (m : ℤ) = ((n / m : ℕ) : ℤ) := by
  rw [Int.fdiv_eq_ediv _ (by positivity)]; omega

/-- On nonnegative first arguments any sufficient amount of fuel computes the
same extended-Euclid triple. -/
theorem egcdF_fuel_irrel :
    ∀ (m : ℕ), ∀ (f g : ℕ) (n : ℕ), m < f → m < g →
      egcdF f (m : ℤ) (n : ℤ) = egcdF g (m : ℤ) (n : ℤ) := by
  intro m
  induction m using Nat.strong_induction_on with
  | _ m ih =>
    intro f g n hf hg
    match f, g with
    | f + 1, g + 1 =>
      rcases Nat.eq_zero_or_pos m with hm | hm
      · subst hm; simp [egcdF]
      · have hmz : ((m : ℤ)) ≠ 0 := by positivity
        simp only [egcdF, if_neg hmz, fmod_natCast]
        rw [ih (n % m) (Nat.mod_lt _ hm) f g m
          (lt_of_lt_of_le (Nat.mod_lt _ hm) (Nat.lt_succ_iff.mp hf))
          (lt_of_lt_of_le (Nat.mod_lt _ hm) (Nat.lt_succ_iff.mp hg))]

/-- Correctness of the embedded extended Euclid on the nonnegative inputs the
repository uses: the first component is the gcd and the last two are Bezout
coefficients. -/
theorem egcd_gcd_bezout :
    ∀ (m n : ℕ),
      (euclidean_algorithm_extended (m : ℤ) (n : ℤ)).1 = (Nat.gcd m n : ℤ) ∧
      (m : ℤ) * (euclidean_algorithm_extended (m : ℤ) (n : ℤ)).2.1 +
        (n : ℤ) * (euclidean_algorithm_extended (m : ℤ) (n : ℤ)).2.2 =
        (euclidean_algorithm_extended (m : ℤ) (n : ℤ)).1 := by
  intro m
  induction m using Nat.strong_induction_on with
  | _ m ih =>
    intro n
    rcases Nat.eq_zero_or_pos m with hm | hm
    · subst hm
      simp [euclidean_algorithm_extended, egcdF]
    · have hmz : ((m : ℤ)) ≠ 0 := by positivity
      have hrec : euclidean_algorithm_extended (m : ℤ) (n : ℤ) =
          ((euclidean_algorithm_extended ((n % m : ℕ) : ℤ) (m : ℤ)).1,
           (euclidean_algorithm_extended ((n % m : ℕ) : ℤ) (m : ℤ)).2.2 -
             ((n / m : ℕ) : ℤ) *
               (euclidean_algorithm_extended ((n % m : ℕ) : ℤ) (m : ℤ)).2.1,
           (euclidean_algorithm_extended ((n % m : ℕ) : ℤ) (m : ℤ)).2.1) := by
        show egcdF (((m : ℤ)).natAbs + 1) (m : ℤ) (n : ℤ) = _
        rw [Int.natAbs_ofNat]
        simp only [egcdF, if_neg hmz, fmod_natCast, fdiv_natCast]
        rw [egcdF_fuel_irrel (n % m) m (n % m + 1) m (Nat.mod_lt _ hm)
          (Nat.lt_succ_self _)]
        rfl
      obtain ⟨ih1, ih2⟩ := ih (n % m) (Nat.mod_lt _ hm) m
      have hsplit : ((n % m : ℕ) : ℤ) + (m : ℤ) * ((n / m : ℕ) : ℤ) = (n : ℤ) := by
        exact_mod_cast congrArg (Nat.cast : ℕ → ℤ) (Nat.mod_add_div n m)
      constructor
      · rw [hrec]
        dsimp only
        rw [ih1, Nat.gcd_rec m n]
      · rw [hrec]
        dsimp only
        linear_combination ih2 - (euclidean_algorithm_extended ((n % m : ℕ) : ℤ) (m : ℤ)).2.1 * hsplit


namespace Affine

/-- Embedding of `ciphers/affine.py: encrypt(_alphabet, _text, a, b)`:
per-symbol `y = (a*x + b) mod m` after the coprimality gate. -/
def encrypt (alph : List Char) (text : List Char) (a b : ℤ) :
    Except String (List Char) :=
  let m : ℤ := alph.length
  if (euclidean_algorithm_extended a m).1 ≠ 1 then
    .error (coprimeErrMsg a m)
  else
    text.mapM (fun ch => do
      let x ← pyIndex alph ch
      let y := (a * (x : ℤ) + b).fmod m
      pure (alph.getD y.toNat 'a'))

/-- Embedding of `ciphers/affine.py: decrypt(_alphabet, _text, a, b)`:
per-symbol `x = a_inv * (y - b) mod m` where `a_inv` is the Bezout
coefficient reduced mod `m`.  The explicit `m = 0` branch mirrors the
`ZeroDivisionError` Python raises at `% m`. -/
def decrypt (alph : List Char) (text : List Char) (a b : ℤ) :
    Except String (List Char) :=
  let m : ℤ := alph.length
  if (euclidean_algorithm_extended a m).1 ≠ 1 then
    .error (coprimeErrMsg a m)
  else if m = 0 then
    .error zeroDivisionMsg
  else
    let aInv := ((euclidean_algorithm_extended a m).2.1).fmod m
    text.mapM (fun ch => do
      let y ← pyIndex alph ch
      let x := (aInv * ((y : ℤ) - b)).fmod m
      pure (alph.getD x.toNat 'a'))

end Affine

/-- With coprime inputs the Bezout coefficient returned by the embedded
extended Euclid is a modular inverse. -/
theorem egcd_inv_modeq (a m : ℕ) (h : Nat.Coprime a m) :
    (a : ℤ) * (euclidean_algorithm_extended (a : ℤ) (m : ℤ)).2.1 ≡ 1 [ZMOD (m : ℤ)] := by
  obtain ⟨h1, h2⟩ := egcd_gcd_bezout a m
  have hg : Nat.gcd a m = 1 := h
  rw [hg, Nat.cast_one] at h1
  rw [h1] at h2
  rw [Int.modEq_iff_dvd]
  exact ⟨(euclidean_algorithm_extended (a : ℤ) (m : ℤ)).2.2, by linarith⟩

/-- In a duplicate-free list, the index of the `i`-th element is `i`. -/
theorem indexOf_get_of_nodup (l : List Char) (h : l.Nodup) (i : Fin l.length) :
    List.indexOf (l.get i) l = i.1 := by
  have hmem := List.get_mem l i.1 i.2
  have hlt := List.indexOf_lt_length.mpr hmem
  have heq := List.indexOf_get hlt
  exact congrArg Fin.val ((List.Nodup.get_inj_iff h).mp heq)

/-- Modular-arithmetic core of the affine round trip: decrypting with the
reduced modular inverse undoes `y = (a*x + b) mod m`. -/
theorem affine_char_inverse (m : ℕ) (hm : 0 < m) (a b xc x : ℤ)
    (hbez : a * xc ≡ 1 [ZMOD (m : ℤ)]) (hx0 : 0 ≤ x) (hxm : x < (m : ℤ)) :
    ((xc.fmod (m : ℤ)) * (((a * x + b).fmod (m : ℤ)) - b)).fmod (m : ℤ) = x := by
  have hmpos : (0 : ℤ) < (m : ℤ) := by positivity
  rw [Int.fmod_eq_emod _ hmpos.le, Int.fmod_eq_emod _ hmpos.le,
    Int.fmod_eq_emod _ hmpos.le]
  have hxcm : xc % (m : ℤ) ≡ xc [ZMOD (m : ℤ)] :=
    Int.emod_emod_of_dvd xc dvd_rfl
  have hym : (a * x + b) % (m : ℤ) ≡ a * x + b [ZMOD (m : ℤ)] :=
    Int.emod_emod_of_dvd _ dvd_rfl
  have hstep : (xc % (m : ℤ)) * (((a * x + b) % (m : ℤ)) - b) ≡ x [ZMOD (m : ℤ)] := by
    calc (xc % (m : ℤ)) * (((a * x + b) % (m : ℤ)) - b)
        ≡ xc * ((a * x + b) - b) [ZMOD (m : ℤ)] :=
          Int.ModEq.mul hxcm (Int.ModEq.sub_right b hym)
      _ = (a * xc) * x := by ring
      _ ≡ 1 * x [ZMOD (m : ℤ)] := Int.ModEq.mul_right x hbez
      _ = x := one_mul x
  have hfin : ((xc % (m : ℤ)) * (((a * x + b) % (m : ℤ)) - b)) % (m : ℤ) =
      x % (m : ℤ) := hstep
  rw [hfin, Int.emod_eq_of_lt hx0 hxm]

/-- Lifting a pointwise two-sided inverse through `List.mapM` in `Except`. -/
theorem mapM_roundtrip {α β : Type} {f : α → Except String β} {g : β → Except String α} :
    ∀ (l : List α), (∀ x ∈ l, ∃ y, f x = .ok y ∧ g y = .ok x) →
      ∃ l2, l.mapM f = .ok l2 ∧ l2.mapM g = .ok l := by
  intro l
  induction l with
  | nil => intro _; exact ⟨[], rfl, rfl⟩
  | cons hd tl ih =>
    intro h
    obtain ⟨y, hy1, hy2⟩ := h hd (by simp)
    obtain ⟨l2, h1, h2⟩ := ih (fun x hx => h x (by simp [hx]))
    refine ⟨y :: l2, ?_, ?_⟩
    · rw [List.mapM_cons, hy1, h1]
      rfl
    · rw [List.mapM_cons, hy2, h2]
      rfl

/-- Claim C1: over any alphabet of distinct symbols with at least two
elements and any key `(a, b)` with `gcd(a, m) = 1`, decrypting the affine
encryption of a text over the alphabet returns the text (in particular the
lowercase-Latin "hello" scenario with key `(5, 8)`, see the witness). -/
theorem C1_affine_roundtrip (alph text : List Char) (a b : ℕ)
    (hnd : alph.Nodup) (hlen : 2 ≤ alph.length)
    (hcop : Nat.Coprime a alph.length)
    (htext : ∀ c ∈ text, c ∈ alph) :
    ∃ ct, Affine.encrypt alph text (a : ℤ) (b : ℤ) = .ok ct ∧
      Affine.decrypt alph ct (a : ℤ) (b : ℤ) = .ok text := by
  have hm : 0 < alph.length := by omega
  have hfst : (euclidean_algorithm_extended (a : ℤ) (alph.length : ℤ)).1 = 1 := by
    rw [(egcd_gcd_bezout a alph.length).1, hcop, Nat.cast_one]
  have hbez := egcd_inv_modeq a alph.length hcop
  have hmz : ((alph.length : ℤ)) ≠ 0 := by positivity
  have hpt : ∀ c ∈ text, ∃ c2,
      (do
        let x ← pyIndex alph c
        let y := ((a : ℤ) * (x : ℤ) + (b : ℤ)).fmod (alph.length : ℤ)
        pure (alph.getD y.toNat 'a') : Except String Char) = .ok c2 ∧
      (do
        let y ← pyIndex alph c2
        let x := (((euclidean_algorithm_extended (a : ℤ) (alph.length : ℤ)).2.1.fmod
          (alph.length : ℤ)) * ((y : ℤ) - (b : ℤ))).fmod (alph.length : ℤ)
        pure (alph.getD x.toNat 'a') : Except String Char) = .ok c := by
    intro c hc
    have hcal : c ∈ alph := htext c hc
    have hx : List.indexOf c alph < alph.length := List.indexOf_lt_length.mpr hcal
    set x : ℕ := List.indexOf c alph with hxdef
    set y : ℤ := ((a : ℤ) * (x : ℤ) + (b : ℤ)).fmod (alph.length : ℤ) with hydef
    have hy0 : 0 ≤ y := by
      rw [hydef, Int.fmod_eq_emod _ (by positivity)]
      exact Int.emod_nonneg _ hmz
    have hym : y < (alph.length : ℤ) := by
      rw [hydef, Int.fmod_eq_emod _ (by positivity)]
      exact Int.emod_lt_of_pos _ (by positivity)
    have hynat : y.toNat < alph.length := (Int.toNat_lt hy0).mpr hym
    refine ⟨alph.get ⟨y.toNat, hynat⟩, ?_, ?_⟩
    · simp only [pyIndex, if_pos hcal]
      show Except.ok (alph.getD y.toNat 'a') = _
      rw [List.getD_eq_get alph 'a' hynat]
    · have hmem : alph.get ⟨y.toNat, hynat⟩ ∈ alph := List.get_mem alph _ _
      simp only [pyIndex, if_pos hmem]
      show Except.ok (alph.getD ((((euclidean_algorithm_extended (a : ℤ)
        (alph.length : ℤ)).2.1.fmod (alph.length : ℤ)) *
        (((List.indexOf (alph.get ⟨y.toNat, hynat⟩) alph : ℕ) : ℤ) - (b : ℤ))).fmod
        (alph.length : ℤ)).toNat 'a') = Except.ok c
      rw [indexOf_get_of_nodup alph hnd ⟨y.toNat, hynat⟩]
      have hcast : ((y.toNat : ℕ) : ℤ) = y := Int.toNat_of_nonneg hy0
      rw [hcast, hydef]
      rw [affine_char_inverse alph.length hm (a : ℤ) (b : ℤ) _ (x : ℤ) hbez
        (by positivity) (by exact_mod_cast hx)]
      rw [Int.toNat_natCast, List.getD_eq_get alph 'a' hx]
      exact congrArg Except.ok (List.indexOf_get hx)
  obtain ⟨ct, hct1, hct2⟩ := mapM_roundtrip text hpt
  refine ⟨ct, ?_, ?_⟩
  · unfold Affine.encrypt
    rw [if_neg (by rw [hfst]; exact fun h => h rfl)]
    exact hct1
  · unfold Affine.decrypt
    rw [if_neg (by rw [hfst]; exact fun h => h rfl), if_neg hmz]
    exact hct2

/-- The 26 lowercase Latin letters, the alphabet of concrete scenario A. -/
def latinAlphabet : List Char :=
  ['a', 'b', 'c', 'd', 'e', 'f', 'g', 'h', 'i', 'j', 'k', 'l', 'm',
   'n', 'o', 'p', 'q', 'r', 's', 't', 'u', 'v', 'w', 'x', 'y', 'z']

/-- Witness for C1: the lowercase-Latin scenario with key `(5, 8)` and
plaintext "hello". -/
theorem C1_affine_roundtrip_witness :
    latinAlphabet.Nodup ∧ Nat.Coprime 5 latinAlphabet.length ∧
    (∃ ct, Affine.encrypt latinAlphabet ['h', 'e', 'l', 'l', 'o']
        ((5 : ℕ) : ℤ) ((8 : ℕ) : ℤ) = .ok ct ∧
      Affine.decrypt latinAlphabet ct ((5 : ℕ) : ℤ) ((8 : ℕ) : ℤ) =
        .ok ['h', 'e', 'l', 'l', 'o']) :=
  ⟨by decide, by decide,
    C1_affine_roundtrip latinAlphabet ['h', 'e', 'l', 'l', 'o'] 5 8
      (by decide) (by decide) (by decide) (by decide)⟩

namespace Vigenere

/-- Embedding of `ciphers/vigenere.py: encrypt(_alphabet, _text, _key)`:
per-position `value = (symbol_index + key_index) mod m` with the key cycled.
An empty key reproduces Python's `ZeroDivisionError` at `i % len(_key)`,
raised after the symbol lookup, matching the source's evaluation order. -/
def encrypt (alph text key : List Char) : Except String (List Char) :=
  text.enum.mapM (fun p => do
    let si ← pyIndex alph p.2
    if key.length = 0 then
      Except.error zeroDivisionMsg
    else do
      let ki ← pyIndex alph (key.getD (p.1 % key.length) 'a')
      pure (alph.getD ((si + ki) % alph.length) 'a'))

/-- Embedding of `ciphers/vigenere.py: decrypt(_alphabet, _text, _key)`:
per-position `value = (symbol_index - key_index) mod m`. -/
def decrypt (alph text key : List Char) : Except String (List Char) :=
  text.enum.mapM (fun p => do
    let si ← pyIndex alph p.2
    if key.length = 0 then
      Except.error zeroDivisionMsg
    else do
      let ki ← pyIndex alph (key.getD (p.1 % key.length) 'a')
      pure (alph.getD (((si : ℤ) - (ki : ℤ)).fmod (alph.length : ℤ)).toNat 'a'))

end Vigenere

/-- Non-overlapping index pairs `(0,1), (2,3), …` of
`range(0, len(text), 2)`, realised directly on the character list (the
generator is only consumed on even-length inputs; a trailing unpaired
character would be dropped exactly as the Python index pairs never cover
it). -/
def chunks2 : List Char → List (Char × Char)
  | c1 :: c2 :: rest => (c1, c2) :: chunks2 rest
  | _ => []

/-- Overlapping index pairs `(0,1), (1,2), …` of `range(0, len(text)-1)`. -/
def pairsCross : List Char → List (Char × Char)
  | c1 :: c2 :: rest => (c1, c2) :: pairsCross (c2 :: rest)
  | _ => []

/-- The dict comprehension `idx = {ch: i for i, ch in enumerate(_alphabet)}`
built with Python dict assignment semantics. -/
def buildIdxGo (d : List (Char × ℕ)) : List (ℕ × Char) → List (Char × ℕ)
  | [] => d
  | (i, ch) :: rest => buildIdxGo (dictSet d ch i) rest

/-- The symbol-to-index dict of `ciphers/affine_bigram.py`. -/
def dictIdx (alph : List Char) : List (Char × ℕ) :=
  buildIdxGo [] alph.enum

/-- Lookup `idx[c]` with the `KeyError`-to-`ValueError` conversion of
`ciphers/affine_bigram.py`. -/
def idxLookup (alph : List Char) (c : Char) : Except String ℕ :=
  match dictGet? (dictIdx alph) c with
  | some i => .ok i
  | none => .error (bigramCharMsg c)

/-- Resolution of the padding character in `ciphers/affine_bigram.py`:
`pad_char = _alphabet[0] if pad_char is None else pad_char` (an empty
alphabet would raise `IndexError` at `_alphabet[0]`). -/
def resolvePad (alph : List Char) (pad : Option Char) : Except String Char :=
  match pad with
  | none =>
    match alph with
    | [] => .error indexErrorMsg
    | c :: _ => .ok c
  | some p => .ok p

namespace AffineBigram

/-- One bigram of the affine-bigram encryption loop: encode
`X = x1*m + x2`, apply `Y = (a*X + b) mod m^2`, decode `divmod(Y, m)`. -/
def encPair (alph : List Char) (a b : ℤ) (p : Char × Char) :
    Except String (List Char) := do
  let x1 ← idxLookup alph p.1
  let x2 ← idxLookup alph p.2
  let X : ℤ := (x1 : ℤ) * (alph.length : ℤ) + (x2 : ℤ)
  let Y := (a * X + b).fmod ((alph.length : ℤ) * (alph.length : ℤ))
  pure [alph.getD (Y.fdiv (alph.length : ℤ)).toNat 'a',
        alph.getD (Y.fmod (alph.length : ℤ)).toNat 'a']

/-- One bigram of the affine-bigram decryption loop:
`X = a_inv * ((Y - b) mod m^2) mod m^2`, decode `divmod(X, m)`. -/
def decPair (alph : List Char) (aInv b : ℤ) (p : Char × Char) :
    Except String (List Char) := do
  let y1 ← idxLookup alph p.1
  let y2 ← idxLookup alph p.2
  let Y : ℤ := (y1 : ℤ) * (alph.length : ℤ) + (y2 : ℤ)
  let X := (aInv * ((Y - b).fmod ((alph.length : ℤ) * (alph.length : ℤ)))).fmod
    ((alph.length : ℤ) * (alph.length : ℤ))
  pure [alph.getD (X.fdiv (alph.length : ℤ)).toNat 'a',
        alph.getD (X.fmod (alph.length : ℤ)).toNat 'a']

/-- Embedding of `ciphers/affine_bigram.py: encrypt(_alphabet, _text, a, b,
crossing, pad_char)`.  In non-overlapping mode an odd-length text is padded
with `pad_char` (default `_alphabet[0]`); in overlapping mode texts shorter
than two characters yield the empty string. -/
def encrypt (alph text : List Char) (a b : ℤ) (crossing : Bool)
    (pad : Option Char) : Except String (List Char) :=
  let nmod : ℤ := (alph.length : ℤ) * (alph.length : ℤ)
  if (euclidean_algorithm_extended a nmod).1 ≠ 1 then
    .error (coprimeSqErrMsg a nmod)
  else if crossing = false then do
    let t2 ←
      if text.length % 2 = 1 then do
        let padc ← resolvePad alph pad
        if padc ∈ alph then Except.ok (text ++ [padc])
        else Except.error padCharErrMsg
      else Except.ok text
    let res ← (chunks2 t2).mapM (encPair alph a b)
    pure res.join
  else
    if text.length < 2 then .ok []
    else do
      let res ← (pairsCross text).mapM (encPair alph a b)
      pure res.join

/-- Embedding of `ciphers/affine_bigram.py: affine_bigram_decrypt(_alphabet,
_text, a, b, crossing)`.  The `nmod = 0` branch mirrors Python's
`ZeroDivisionError` at `% nmod` while computing the modular inverse. -/
def affine_bigram_decrypt (alph text : List Char) (a b : ℤ) (crossing : Bool) :
    Except String (List Char) :=
  let nmod : ℤ := (alph.length : ℤ) * (alph.length : ℤ)
  if (euclidean_algorithm_extended a nmod).1 ≠ 1 then
    .error (coprimeSqErrMsg a nmod)
  else if nmod = 0 then .error zeroDivisionMsg
  else
    let aInv := (euclidean_algorithm_extended a nmod).2.1.fmod nmod
    if crossing = false then
      if text.length % 2 ≠ 0 then .error oddLenErrMsg
      else do
        let res ← (chunks2 text).mapM (decPair alph aInv b)
        pure res.join
    else
      if text.length < 2 then .ok []
      else do
        let res ← (pairsCross text).mapM (decPair alph aInv b)
        pure res.join

end AffineBigram

theorem dictGet?_dictSet_self {κ ν : Type} [DecidableEq κ]
    (d : List (κ × ν)) (k : κ) (v : ν) :
    dictGet? (dictSet d k v) k = some v := by
  induction d with
  | nil => simp [dictSet, dictGet?]
  | cons hd tl ih =>
    by_cases h : hd.1 = k
    · simp [dictSet, dictGet?, h]
    · simpa [dictSet, dictGet?, h] using ih

theorem dictGet?_dictSet_ne {κ ν : Type} [DecidableEq κ]
    (d : List (κ × ν)) (k k2 : κ) (v : ν) (h : k2 ≠ k) :
    dictGet? (dictSet d k v) k2 = dictGet? d k2 := by
  induction d with
  | nil => simp [dictSet, dictGet?, Ne.symm h]
  | cons hd tl ih =>
    by_cases h1 : hd.1 = k
    · subst h1
      simp [dictSet, dictGet?, Ne.symm h]
    · by_cases h2 : hd.1 = k2
      · simp [dictSet, dictGet?, h1, h2, h]
      · simpa [dictSet, dictGet?, h1, h2] using ih

theorem buildIdxGo_not_mem (c : Char) :
    ∀ (pairs : List (ℕ × Char)) (d : List (Char × ℕ)),
      c ∉ pairs.map Prod.snd →
      dictGet? (buildIdxGo d pairs) c = dictGet? d c := by
  intro pairs
  induction pairs with
  | nil => intro d _; rfl
  | cons hd tl ih =>
    intro d hc
    simp only [List.map_cons, List.mem_cons] at hc
    push_neg at hc
    show dictGet? (buildIdxGo (dictSet d hd.2 hd.1) tl) c = _
    rw [ih _ hc.2, dictGet?_dictSet_ne _ _ _ _ hc.1]

/-- The symbol-to-index dict lookup agrees with `list.index` on
duplicate-free alphabets. -/
theorem idxLookup_mem (alph : List Char) (hnd : alph.Nodup) (c : Char)
    (hc : c ∈ alph) : idxLookup alph c = .ok (List.indexOf c alph) := by
  suffices h : ∀ (l : List Char) (n : ℕ) (d : List (Char × ℕ)),
      l.Nodup → c ∈ l →
      dictGet? (buildIdxGo d (l.enumFrom n)) c = some (n + List.indexOf c l) by
    unfold idxLookup dictIdx
    rw [show alph.enum = alph.enumFrom 0 from rfl, h alph 0 [] hnd hc]
    simp
  intro l
  induction l with
  | nil => intro n d _ hmem; exact absurd hmem (List.not_mem_nil c)
  | cons hd tl ih =>
    intro n d hnodup hmem
    have hstep : (hd :: tl).enumFrom n = (n, hd) :: tl.enumFrom (n + 1) := rfl
    rw [hstep]
    show dictGet? (buildIdxGo (dictSet d hd n) (tl.enumFrom (n + 1))) c = _
    rcases List.mem_cons.mp hmem with heq | htl
    · subst heq
      have hnotl : c ∉ tl := (List.nodup_cons.mp hnodup).1
      rw [buildIdxGo_not_mem c _ _ (by rw [List.enumFrom_map_snd]; exact hnotl)]
      rw [dictGet?_dictSet_self, List.indexOf_cons_self]
      simp
    · have hne : c ≠ hd := by
        rintro rfl
        exact (List.nodup_cons.mp hnodup).1 htl
      rw [ih (n + 1) (dictSet d hd n) (List.nodup_cons.mp hnodup).2 htl,
        List.indexOf_cons_ne tl (Ne.symm hne)]
      congr 1
      omega

/-- Lookup of an absent symbol yields the `ValueError` naming it. -/
theorem idxLookup_not_mem (alph : List Char) (c : Char) (hc : c ∉ alph) :
    idxLookup alph c = .error (bigramCharMsg c) := by
  unfold idxLookup dictIdx
  rw [buildIdxGo_not_mem c _ _ (by
    rw [show alph.enum = alph.enumFrom 0 from rfl, List.enumFrom_map_snd]
    exact hc)]
  rfl

/-- Modular-arithmetic core of the affine-bigram round trip (the decryption
reduces `Y - b` once more before multiplying by the inverse). -/
theorem bigram_char_inverse (M : ℕ) (hM : 0 < M) (a b xc X : ℤ)
    (hbez : a * xc ≡ 1 [ZMOD (M : ℤ)]) (hX0 : 0 ≤ X) (hXM : X < (M : ℤ)) :
    ((xc.fmod (M : ℤ)) * ((((a * X + b).fmod (M : ℤ)) - b).fmod (M : ℤ))).fmod
      (M : ℤ) = X := by
  have hMpos : (0 : ℤ) < (M : ℤ) := by positivity
  rw [Int.fmod_eq_emod _ hMpos.le, Int.fmod_eq_emod _ hMpos.le,
    Int.fmod_eq_emod _ hMpos.le, Int.fmod_eq_emod _ hMpos.le]
  have hym : (a * X + b) % (M : ℤ) ≡ a * X + b [ZMOD (M : ℤ)] :=
    Int.emod_emod_of_dvd _ dvd_rfl
  have hinner : (((a * X + b) % (M : ℤ)) - b) % (M : ℤ) ≡ (a * X + b) - b
      [ZMOD (M : ℤ)] :=
    (Int.emod_emod_of_dvd _ dvd_rfl).trans (Int.ModEq.sub_right b hym)
  have hstep : (xc % (M : ℤ)) * ((((a * X + b) % (M : ℤ)) - b) % (M : ℤ)) ≡ X
      [ZMOD (M : ℤ)] := by
    calc (xc % (M : ℤ)) * ((((a * X + b) % (M : ℤ)) - b) % (M : ℤ))
        ≡ xc * ((a * X + b) - b) [ZMOD (M : ℤ)] :=
          Int.ModEq.mul (Int.emod_emod_of_dvd xc dvd_rfl) hinner
      _ = (a * xc) * X := by ring
      _ ≡ 1 * X [ZMOD (M : ℤ)] := Int.ModEq.mul_right X hbez
      _ = X := one_mul X
  have hfin : ((xc % (M : ℤ)) * ((((a * X + b) % (M : ℤ)) - b) % (M : ℤ))) %
      (M : ℤ) = X % (M : ℤ) := hstep
  rw [hfin, Int.emod_eq_of_lt hX0 hXM]

/-- A value `x1*m + x2` with `x2 < m` splits back into its digits under
floor division and floor mod. -/
theorem fdiv_fmod_recompose (m x1 x2 : ℕ) (hm : 0 < m) (h2 : x2 < m) :
    (((x1 : ℤ) * (m : ℤ) + (x2 : ℤ)).fdiv (m : ℤ) = (x1 : ℤ)) ∧
    (((x1 : ℤ) * (m : ℤ) + (x2 : ℤ)).fmod (m : ℤ) = (x2 : ℤ)) := by
  have hmpos : (0 : ℤ) < (m : ℤ) := by positivity
  rw [Int.fdiv_eq_ediv _ hmpos.le, Int.fmod_eq_emod _ hmpos.le]
  constructor
  · rw [add_comm, Int.add_mul_ediv_right _ _ (by positivity : ((m : ℤ)) ≠ 0)]
    rw [Int.ediv_eq_zero_of_lt (by positivity) (by exact_mod_cast h2)]
    ring
  · rw [add_comm, Int.add_mul_emod_self]
    exact Int.emod_eq_of_lt (by positivity) (by exact_mod_cast h2)

theorem chunks2_embed_join : ∀ qs : List (Char × Char),
    chunks2 ((qs.map (fun q => [q.1, q.2])).join) = qs
  | [] => rfl
  | q :: rest => by
      show chunks2 (q.1 :: q.2 :: (rest.map (fun q => [q.1, q.2])).join) = q :: rest
      rw [chunks2, chunks2_embed_join rest]

theorem join_embed_chunks2 : ∀ (t : List Char), t.length % 2 = 0 →
    ((chunks2 t).map (fun p => [p.1, p.2])).join = t
  | [], _ => rfl
  | [_], h => by simp at h
  | c1 :: c2 :: rest, h => by
      have hr := join_embed_chunks2 rest (by
        simp only [List.length_cons] at h
        omega)
      show ((chunks2 (c1 :: c2 :: rest)).map (fun p => [p.1, p.2])).join = _
      rw [chunks2]
      simp only [List.map_cons, List.join_cons, hr]
      rfl

theorem embed_join_length (qs : List (Char × Char)) :
    ((qs.map (fun q => [q.1, q.2])).join).length = 2 * qs.length := by
  induction qs with
  | nil => rfl
  | cons q rest ih =>
    simp only [List.map_cons, List.join_cons, List.length_append, ih,
      List.length_cons]
    simp
    omega

theorem mem_chunks2 : ∀ (t : List Char) (p : Char × Char),
    p ∈ chunks2 t → p.1 ∈ t ∧ p.2 ∈ t
  | [], _, h => absurd h (List.not_mem_nil _)
  | [_], _, h => absurd h (List.not_mem_nil _)
  | c1 :: c2 :: rest, p, h => by
      rw [chunks2] at h
      rcases List.mem_cons.mp h with heq | htl
      · subst heq
        constructor <;> simp
      · have := mem_chunks2 rest p htl
        constructor <;> simp [this.1, this.2]

theorem mem_pairsCross : ∀ (t : List Char) (p : Char × Char),
    p ∈ pairsCross t → p.1 ∈ t ∧ p.2 ∈ t
  | [], _, h => absurd h (List.not_mem_nil _)
  | [_], _, h => absurd h (List.not_mem_nil _)
  | c1 :: c2 :: rest, p, h => by
      rw [pairsCross] at h
      rcases List.mem_cons.mp h with heq | htl
      · subst heq
        constructor <;> simp
      · have := mem_pairsCross (c2 :: rest) p htl
        rcases this with ⟨h1, h2⟩
        exact ⟨List.mem_cons_of_mem _ h1, List.mem_cons_of_mem _ h2⟩

/-- Pointwise two-sided inverses of bigram transforms lift through
`List.mapM`, preserving lengths and the two-character block structure. -/
theorem mapM_embed_roundtrip {f g : Char × Char → Except String (List Char)} :
    ∀ (ps : List (Char × Char)),
      (∀ p ∈ ps, ∃ q : Char × Char, f p = .ok [q.1, q.2] ∧ g q = .ok [p.1, p.2]) →
      ∃ qs : List (Char × Char),
        ps.mapM f = .ok (qs.map (fun q => [q.1, q.2])) ∧
        qs.mapM g = .ok (ps.map (fun p => [p.1, p.2])) ∧
        qs.length = ps.length := by
  intro ps
  induction ps with
  | nil => intro _; exact ⟨[], rfl, rfl, rfl⟩
  | cons hd tl ih =>
    intro h
    obtain ⟨q, hq1, hq2⟩ := h hd (by simp)
    obtain ⟨qs, h1, h2, h3⟩ := ih (fun p hp => h p (by simp [hp]))
    refine ⟨q :: qs, ?_, ?_, by simp [h3]⟩
    · rw [List.mapM_cons, hq1, h1]
      rfl
    · rw [List.mapM_cons, hq2, h2]
      rfl

/-- Reduction of a bind on a successful `Except` value. -/
theorem ok_bind {α β : Type} (v : α) (f : α → Except String β) :
    (Except.ok v >>= f : Except String β) = f v := rfl

/-- Per-bigram round trip of the affine-bigram transforms over a
duplicate-free alphabet with a key coprime to `m^2`. -/
theorem bigram_pair_roundtrip (alph : List Char) (a b : ℕ)
    (hnd : alph.Nodup) (hm : 0 < alph.length)
    (hcop : Nat.Coprime a (alph.length * alph.length))
    (p : Char × Char) (hp1 : p.1 ∈ alph) (hp2 : p.2 ∈ alph) :
    ∃ q : Char × Char,
      AffineBigram.encPair alph (a : ℤ) (b : ℤ) p = .ok [q.1, q.2] ∧
      AffineBigram.decPair alph
        ((euclidean_algorithm_extended (a : ℤ)
          ((alph.length : ℤ) * (alph.length : ℤ))).2.1.fmod
          ((alph.length : ℤ) * (alph.length : ℤ))) (b : ℤ) q = .ok [p.1, p.2] := by
  have hMcast : ((alph.length : ℤ) * (alph.length : ℤ)) =
      ((alph.length * alph.length : ℕ) : ℤ) := by push_cast; ring
  set m := alph.length with hmdef
  have hMpos : (0 : ℤ) < ((m * m : ℕ) : ℤ) := by
    have : 0 < m * m := Nat.mul_pos hm hm
    exact_mod_cast this
  have hbez := egcd_inv_modeq a (m * m) hcop
  set x1 := List.indexOf p.1 alph with hx1def
  set x2 := List.indexOf p.2 alph with hx2def
  have hx1 : x1 < m := List.indexOf_lt_length.mpr hp1
  have hx2 : x2 < m := List.indexOf_lt_length.mpr hp2
  set X : ℤ := (x1 : ℤ) * (m : ℤ) + (x2 : ℤ) with hXdef
  have hX0 : 0 ≤ X := by positivity
  have hXM : X < ((m * m : ℕ) : ℤ) := by
    have hn : x1 * m + x2 < m * m := by
      have h1 : x1 + 1 ≤ m := hx1
      calc x1 * m + x2 < x1 * m + m := by omega
        _ = (x1 + 1) * m := by ring
        _ ≤ m * m := Nat.mul_le_mul_right m h1
    rw [hXdef]
    exact_mod_cast hn
  set Y : ℤ := ((a : ℤ) * X + (b : ℤ)).fmod ((m * m : ℕ) : ℤ) with hYdef
  have hY0 : 0 ≤ Y := by
    rw [hYdef, Int.fmod_eq_emod _ hMpos.le]
    exact Int.emod_nonneg _ (by positivity)
  have hYM : Y < ((m * m : ℕ) : ℤ) := by
    rw [hYdef, Int.fmod_eq_emod _ hMpos.le]
    exact Int.emod_lt_of_pos _ hMpos
  have hmzpos : (0 : ℤ) < (m : ℤ) := by positivity
  have hyd0 : 0 ≤ Y.fdiv (m : ℤ) := by
    rw [Int.fdiv_eq_ediv _ hmzpos.le]
    exact Int.ediv_nonneg hY0 hmzpos.le
  have hydm : Y.fdiv (m : ℤ) < (m : ℤ) := by
    rw [Int.fdiv_eq_ediv _ hmzpos.le]
    refine (Int.ediv_lt_iff_lt_mul hmzpos).mpr ?_
    have : ((m * m : ℕ) : ℤ) = (m : ℤ) * (m : ℤ) := by push_cast; ring
    rw [this] at hYM
    exact hYM
  have hym0 : 0 ≤ Y.fmod (m : ℤ) := by
    rw [Int.fmod_eq_emod _ hmzpos.le]
    exact Int.emod_nonneg _ (by positivity)
  have hymm : Y.fmod (m : ℤ) < (m : ℤ) := by
    rw [Int.fmod_eq_emod _ hmzpos.le]
    exact Int.emod_lt_of_pos _ hmzpos
  have hy1nat : (Y.fdiv (m : ℤ)).toNat < m := (Int.toNat_lt hyd0).mpr hydm
  have hy2nat : (Y.fmod (m : ℤ)).toNat < m := (Int.toNat_lt hym0).mpr hymm
  refine ⟨(alph.get ⟨(Y.fdiv (m : ℤ)).toNat, hy1nat⟩,
           alph.get ⟨(Y.fmod (m : ℤ)).toNat, hy2nat⟩), ?_, ?_⟩
  · unfold AffineBigram.encPair
    rw [idxLookup_mem alph hnd p.1 hp1, ok_bind, idxLookup_mem alph hnd p.2 hp2,
      ok_bind, hMcast]
    show Except.ok [alph.getD (Y.fdiv (m : ℤ)).toNat 'a',
      alph.getD (Y.fmod (m : ℤ)).toNat 'a'] = _
    rw [List.getD_eq_get alph 'a' hy1nat, List.getD_eq_get alph 'a' hy2nat]
  · unfold AffineBigram.decPair
    rw [idxLookup_mem alph hnd _ (List.get_mem alph _ hy1nat), ok_bind,
      idxLookup_mem alph hnd _ (List.get_mem alph _ hy2nat), ok_bind,
      indexOf_get_of_nodup alph hnd ⟨(Y.fdiv (m : ℤ)).toNat, hy1nat⟩,
      indexOf_get_of_nodup alph hnd ⟨(Y.fmod (m : ℤ)).toNat, hy2nat⟩, hMcast]
    have hY' : (((Y.fdiv (m : ℤ)).toNat : ℕ) : ℤ) * (m : ℤ) +
        (((Y.fmod (m : ℤ)).toNat : ℕ) : ℤ) = Y := by
      rw [Int.toNat_of_nonneg hyd0, Int.toNat_of_nonneg hym0,
        Int.fdiv_eq_ediv _ hmzpos.le, Int.fmod_eq_emod _ hmzpos.le]
      have h := Int.ediv_add_emod Y (m : ℤ)
      linarith
    rw [hY', hYdef]
    simp only [pure, Except.pure]
    rw [bigram_char_inverse (m * m) (Nat.mul_pos hm hm) (a : ℤ) (b : ℤ) _ X hbez
      hX0 hXM]
    obtain ⟨hd, hmo⟩ := fdiv_fmod_recompose m x1 x2 hm hx2
    rw [hXdef, hd, hmo, Int.toNat_natCast, Int.toNat_natCast,
      List.getD_eq_get alph 'a' hx1, List.getD_eq_get alph 'a' hx2]
    have e1 : alph.get ⟨x1, hx1⟩ = p.1 := List.indexOf_get hx1
    have e2 : alph.get ⟨x2, hx2⟩ = p.2 := List.indexOf_get hx2
    rw [e1, e2]

theorem chunks2_length_even : ∀ (t : List Char), t.length % 2 = 0 →
    2 * (chunks2 t).length = t.length
  | [], _ => rfl
  | [_], h => by simp at h
  | c1 :: c2 :: rest, h => by
      rw [chunks2]
      have hr := chunks2_length_even rest (by
        simp only [List.length_cons] at h
        omega)
      simp only [List.length_cons]
      omega

/-- Core of the non-overlapping affine-bigram round trip: the encrypted
pair blocks concatenate to a ciphertext that decrypts back to the even-length
input. -/
theorem noncross_core (alph t2 : List Char) (a b : ℕ)
    (hnd : alph.Nodup) (hm : 0 < alph.length)
    (hcop : Nat.Coprime a (alph.length * alph.length))
    (heven : t2.length % 2 = 0) (ht2 : ∀ c ∈ t2, c ∈ alph) :
    ∃ qs : List (Char × Char),
      (chunks2 t2).mapM (AffineBigram.encPair alph (a : ℤ) (b : ℤ)) =
        .ok (qs.map (fun q => [q.1, q.2])) ∧
      ((qs.map (fun q => [q.1, q.2])).join).length = t2.length ∧
      AffineBigram.affine_bigram_decrypt alph
        ((qs.map (fun q => [q.1, q.2])).join) (a : ℤ) (b : ℤ) false = .ok t2 := by
  have hMcast : ((alph.length : ℤ) * (alph.length : ℤ)) =
      ((alph.length * alph.length : ℕ) : ℤ) := by push_cast; ring
  have hpt : ∀ p ∈ chunks2 t2, ∃ q : Char × Char,
      AffineBigram.encPair alph (a : ℤ) (b : ℤ) p = .ok [q.1, q.2] ∧
      AffineBigram.decPair alph
        ((euclidean_algorithm_extended (a : ℤ)
          ((alph.length : ℤ) * (alph.length : ℤ))).2.1.fmod
          ((alph.length : ℤ) * (alph.length : ℤ))) (b : ℤ) q = .ok [p.1, p.2] := by
    intro p hp
    obtain ⟨hm1, hm2⟩ := mem_chunks2 t2 p hp
    exact bigram_pair_roundtrip alph a b hnd hm hcop p (ht2 _ hm1) (ht2 _ hm2)
  obtain ⟨qs, h1, h2, h3⟩ := mapM_embed_roundtrip (chunks2 t2) hpt
  have hctlen : ((qs.map (fun q => [q.1, q.2])).join).length = t2.length := by
    rw [embed_join_length, h3, ← chunks2_length_even t2 heven]
  refine ⟨qs, h1, hctlen, ?_⟩
  have hfst : (euclidean_algorithm_extended (a : ℤ)
      ((alph.length : ℤ) * (alph.length : ℤ))).1 = 1 := by
    rw [hMcast, (egcd_gcd_bezout a (alph.length * alph.length)).1, hcop,
      Nat.cast_one]
  unfold AffineBigram.affine_bigram_decrypt
  rw [if_neg (by rw [hfst]; exact fun h => h rfl)]
  rw [if_neg (by positivity : ¬ ((alph.length : ℤ) * (alph.length : ℤ) = 0))]
  have hcteven : ¬ (((qs.map (fun q => [q.1, q.2])).join).length % 2 ≠ 0) := by
    rw [hctlen]
    omega
  simp only [Bool.false_eq_true, if_false, if_neg hcteven, reduceIte]
  rw [chunks2_embed_join qs, h2, ok_bind]
  rw [join_embed_chunks2 t2 heven]
  rfl

/-- Decidable equality of `Except` results, needed to settle concrete
cipher evaluations by `decide`. -/
instance instDecEqExcept {ε α : Type} [DecidableEq ε] [DecidableEq α] :
    DecidableEq (Except ε α)
  | .error e1, .error e2 =>
    if h : e1 = e2 then .isTrue (by rw [h]) else
      .isFalse (by intro hh; cases hh; exact h rfl)
  | .error _, .ok _ => .isFalse (by intro hh; cases hh)
  | .ok _, .error _ => .isFalse (by intro hh; cases hh)
  | .ok a1, .ok a2 =>
    if h : a1 = a2 then .isTrue (by rw [h]) else
      .isFalse (by intro hh; cases hh; exact h rfl)

/-- Claim C4, amended: the affine-bigram round trip holds in the
non-overlapping pairing mode for every even-length text over a
duplicate-free alphabet of size at least 2 and every key with
`gcd(a, m^2) = 1`.  In the crossing (overlapping) mode decryption is not the
inverse of encryption (see the counterexample): crossing encryption emits
two output characters per overlapping bigram, and crossing decryption then
reads overlapping bigrams of that longer ciphertext. -/
theorem C4_noncross_roundtrip (alph text : List Char) (a b : ℕ)
    (hnd : alph.Nodup) (hlen : 2 ≤ alph.length)
    (hcop : Nat.Coprime a (alph.length * alph.length))
    (heven : text.length % 2 = 0) (htext : ∀ c ∈ text, c ∈ alph) :
    ∃ ct, AffineBigram.encrypt alph text (a : ℤ) (b : ℤ) false none = .ok ct ∧
      AffineBigram.affine_bigram_decrypt alph ct (a : ℤ) (b : ℤ) false =
        .ok text := by
  obtain ⟨qs, h1, h2, h3⟩ := noncross_core alph text a b hnd (by omega) hcop
    heven htext
  have hfst : (euclidean_algorithm_extended (a : ℤ)
      ((alph.length : ℤ) * (alph.length : ℤ))).1 = 1 := by
    rw [show ((alph.length : ℤ) * (alph.length : ℤ)) =
      ((alph.length * alph.length : ℕ) : ℤ) by push_cast; ring]
    rw [(egcd_gcd_bezout a (alph.length * alph.length)).1, hcop, Nat.cast_one]
  refine ⟨(qs.map (fun q => [q.1, q.2])).join, ?_, h3⟩
  unfold AffineBigram.encrypt
  rw [if_neg (by rw [hfst]; exact fun h => h rfl)]
  simp only [reduceIte]
  rw [if_neg (by omega : ¬ text.length % 2 = 1), ok_bind, h1, ok_bind]
  rfl

/-- Counterexample for claim C4 as stated: over the two-letter alphabet with
the identity key `(1, 0)` and the even-length text "abab", crossing-mode
decryption of the crossing-mode encryption does not return the text. -/
theorem C4_crossing_counterexample :
    (['a', 'b'] : List Char).Nodup ∧
    2 ≤ (['a', 'b'] : List Char).length ∧
    Nat.Coprime 1 ((['a', 'b'] : List Char).length *
      (['a', 'b'] : List Char).length) ∧
    (['a', 'b', 'a', 'b'] : List Char).length % 2 = 0 ∧
    (∀ c ∈ (['a', 'b', 'a', 'b'] : List Char), c ∈ (['a', 'b'] : List Char)) ∧
    AffineBigram.encrypt ['a', 'b'] ['a', 'b', 'a', 'b'] ((1 : ℕ) : ℤ)
      ((0 : ℕ) : ℤ) true none = .ok ['a', 'b', 'b', 'a', 'a', 'b'] ∧
    AffineBigram.affine_bigram_decrypt ['a', 'b'] ['a', 'b', 'b', 'a', 'a', 'b']
      ((1 : ℕ) : ℤ) ((0 : ℕ) : ℤ) true ≠ .ok ['a', 'b', 'a', 'b'] := by
  decide

/-- Witness for C4 (amended): concrete non-overlapping round trip over the
two-letter alphabet. -/
theorem C4_noncross_roundtrip_witness :
    (['a', 'b'] : List Char).Nodup ∧ Nat.Coprime 1 4 ∧
    (∃ ct, AffineBigram.encrypt ['a', 'b'] ['b', 'a'] ((1 : ℕ) : ℤ)
        ((0 : ℕ) : ℤ) false none = .ok ct ∧
      AffineBigram.affine_bigram_decrypt ['a', 'b'] ct ((1 : ℕ) : ℤ)
        ((0 : ℕ) : ℤ) false = .ok ['b', 'a']) :=
  ⟨by decide, by decide,
    C4_noncross_roundtrip ['a', 'b'] ['b', 'a'] 1 0 (by decide) (by decide)
      (by decide) (by decide) (by decide)⟩

/-- Claim C10: non-overlapping affine-bigram encryption of an odd-length
plaintext pads it with `pad_char` (default: the alphabet's first symbol),
produces a ciphertext one character longer than the plaintext, and
decryption returns `plaintext + pad_char`. -/
theorem C10_bigram_padding (alph text : List Char) (a b : ℕ) (pad : Option Char)
    (hnd : alph.Nodup)
    (hcop : Nat.Coprime a (alph.length * alph.length))
    (hodd : text.length % 2 = 1) (htext : ∀ c ∈ text, c ∈ alph)
    (hpad : ∀ p ∈ pad, p ∈ alph) :
    ∃ ct, AffineBigram.encrypt alph text (a : ℤ) (b : ℤ) false pad = .ok ct ∧
      ct.length = text.length + 1 ∧
      AffineBigram.affine_bigram_decrypt alph ct (a : ℤ) (b : ℤ) false =
        .ok (text ++ [pad.getD (alph.headD 'a')]) := by
  have htne : text ≠ [] := by
    intro h
    rw [h] at hodd
    simp at hodd
  have halne : alph ≠ [] := by
    match text, htne with
    | c :: _, _ =>
      intro h
      have := htext c (by simp)
      rw [h] at this
      exact List.not_mem_nil c this
  have hm : 0 < alph.length := List.length_pos.mpr halne
  have hpadc : pad.getD (alph.headD 'a') ∈ alph := by
    match pad, hpad with
    | none, _ =>
      match alph, halne with
      | c :: rest, _ => simp [Option.getD, List.headD]
    | some p, hp => simpa using hp p rfl
  have heven2 : (text ++ [pad.getD (alph.headD 'a')]).length % 2 = 0 := by
    rw [List.length_append]
    simp
    omega
  have ht2 : ∀ c ∈ text ++ [pad.getD (alph.headD 'a')], c ∈ alph := by
    intro c hc
    rcases List.mem_append.mp hc with h | h
    · exact htext c h
    · rw [List.mem_singleton.mp h]
      exact hpadc
  obtain ⟨qs, h1, h2, h3⟩ := noncross_core alph
    (text ++ [pad.getD (alph.headD 'a')]) a b hnd hm hcop heven2 ht2
  have hfst : (euclidean_algorithm_extended (a : ℤ)
      ((alph.length : ℤ) * (alph.length : ℤ))).1 = 1 := by
    rw [show ((alph.length : ℤ) * (alph.length : ℤ)) =
      ((alph.length * alph.length : ℕ) : ℤ) by push_cast; ring]
    rw [(egcd_gcd_bezout a (alph.length * alph.length)).1, hcop, Nat.cast_one]
  refine ⟨(qs.map (fun q => [q.1, q.2])).join, ?_, ?_, h3⟩
  · unfold AffineBigram.encrypt
    rw [if_neg (by rw [hfst]; exact fun h => h rfl)]
    simp only [reduceIte]
    rw [if_pos hodd]
    have hpadres : resolvePad alph pad = .ok (pad.getD (alph.headD 'a')) := by
      match pad with
      | none =>
        match alph, halne with
        | c :: rest, _ => rfl
      | some p => rfl
    rw [hpadres, ok_bind, if_pos hpadc, ok_bind, h1, ok_bind]
    rfl
  · rw [h2, List.length_append]
    rfl

/-- Witness for C10: odd-length text `"b"` over the two-letter alphabet with
the default pad (the alphabet's first symbol `'a'`). -/
theorem C10_bigram_padding_witness :
    (['a', 'b'] : List Char).Nodup ∧ Nat.Coprime 1 4 ∧
    (['b'] : List Char).length % 2 = 1 ∧
    (∃ ct, AffineBigram.encrypt ['a', 'b'] ['b'] ((1 : ℕ) : ℤ) ((0 : ℕ) : ℤ)
        false none = .ok ct ∧
      ct.length = (['b'] : List Char).length + 1 ∧
      AffineBigram.affine_bigram_decrypt ['a', 'b'] ct ((1 : ℕ) : ℤ)
        ((0 : ℕ) : ℤ) false =
        .ok (['b'] ++ [(none : Option Char).getD
          ((['a', 'b'] : List Char).headD 'a')])) :=
  ⟨by decide, by decide, by decide,
    C10_bigram_padding ['a', 'b'] ['b'] 1 0 none (by decide) (by decide)
      (by decide) (by decide) (by decide)⟩

/-- A `mapM` whose body fails with a designated message exactly on bad
elements propagates the error of the first bad element. -/
theorem mapM_find_error {α β : Type} {f : α → Except String β} {P : α → Prop}
    {msg : α → String}
    (hgood : ∀ x, P x → ∃ y, f x = .ok y)
    (hbadf : ∀ x, ¬ P x → f x = .error (msg x)) :
    ∀ l : List α, (∃ x ∈ l, ¬ P x) →
      ∃ x, x ∈ l ∧ ¬ P x ∧ l.mapM f = .error (msg x) := by
  intro l
  induction l with
  | nil =>
    rintro ⟨x, hx, _⟩
    exact absurd hx (List.not_mem_nil x)
  | cons hd tl ih =>
    rintro ⟨x, hx, hxP⟩
    by_cases hP : P hd
    · obtain ⟨y, hy⟩ := hgood hd hP
      have hbad_tl : ∃ z ∈ tl, ¬ P z := by
        rcases List.mem_cons.mp hx with heq | hmem
        · exact absurd (heq ▸ hP) hxP
        · exact ⟨x, hmem, hxP⟩
      obtain ⟨z, hz1, hz2, hz3⟩ := ih hbad_tl
      refine ⟨z, List.mem_cons_of_mem _ hz1, hz2, ?_⟩
      rw [List.mapM_cons, hy, ok_bind, hz3]
      rfl
    · refine ⟨hd, by simp, hP, ?_⟩
      rw [List.mapM_cons, hbadf hd hP]
      rfl

theorem chunks2_covers : ∀ (t : List Char), t.length % 2 = 0 → ∀ c ∈ t,
    ∃ p ∈ chunks2 t, c = p.1 ∨ c = p.2
  | [], _, c, hc => absurd hc (List.not_mem_nil c)
  | [_], h, _, _ => by simp at h
  | c1 :: c2 :: rest, h, c, hc => by
      rcases List.mem_cons.mp hc with heq | hc2
      · exact ⟨(c1, c2), by rw [chunks2]; simp, Or.inl heq⟩
      · rcases List.mem_cons.mp hc2 with heq | hc3
        · exact ⟨(c1, c2), by rw [chunks2]; simp, Or.inr heq⟩
        · obtain ⟨p, hp, hor⟩ := chunks2_covers rest
            (by simp only [List.length_cons] at h; omega) c hc3
          exact ⟨p, by rw [chunks2]; exact List.mem_cons_of_mem _ hp, hor⟩

theorem pairsCross_covers : ∀ (t : List Char), 2 ≤ t.length → ∀ c ∈ t,
    ∃ p ∈ pairsCross t, c = p.1 ∨ c = p.2
  | [], h, _, _ => by simp at h
  | [_], h, _, _ => by simp at h
  | c1 :: c2 :: rest, _, c, hc => by
      rcases List.mem_cons.mp hc with heq | hc2
      · exact ⟨(c1, c2), by rw [pairsCross]; simp, Or.inl heq⟩
      · match rest, hc2 with
        | [], hc2 =>
          exact ⟨(c1, c2), by rw [pairsCross]; simp,
            Or.inr (List.mem_singleton.mp hc2)⟩
        | r1 :: rs, hc2 =>
          obtain ⟨p, hp, hor⟩ := pairsCross_covers (c2 :: r1 :: rs)
            (by simp) c hc2
          exact ⟨p, by rw [pairsCross]; exact List.mem_cons_of_mem _ hp, hor⟩

theorem exists_enum_of_mem {c : Char} {l : List Char} (h : c ∈ l) :
    ∃ p ∈ l.enum, p.2 = c := by
  have h2 : c ∈ (l.enum.map Prod.snd) := by
    rw [show l.enum = l.enumFrom 0 from rfl, List.enumFrom_map_snd]
    exact h
  obtain ⟨p, hp, hpc⟩ := List.mem_map.mp h2
  exact ⟨p, hp, hpc⟩

/-- Affine encryption surfaces an out-of-alphabet plaintext symbol by name
(once the key passes the coprimality gate). -/
theorem affine_encrypt_unknown (alph text : List Char) (a b : ℕ)
    (hcop : Nat.Coprime a alph.length) (hbad : ∃ c ∈ text, c ∉ alph) :
    ∃ c, c ∈ text ∧ c ∉ alph ∧
      Affine.encrypt alph text (a : ℤ) (b : ℤ) = .error (notInListMsg c) := by
  have hfst : (euclidean_algorithm_extended (a : ℤ) (alph.length : ℤ)).1 = 1 := by
    rw [(egcd_gcd_bezout a alph.length).1, hcop, Nat.cast_one]
  obtain ⟨c, h1, h2, h3⟩ := @mapM_find_error Char Char
    (fun ch => do
      let x ← pyIndex alph ch
      let y := ((a : ℤ) * (x : ℤ) + (b : ℤ)).fmod (alph.length : ℤ)
      pure (alph.getD y.toNat 'a'))
    (fun c => c ∈ alph)
    notInListMsg
    (fun x hx => by
      have hx2 : x ∈ alph := hx
      refine ⟨alph.getD (((a : ℤ) * (List.indexOf x alph : ℤ) +
        (b : ℤ)).fmod (alph.length : ℤ)).toNat 'a', ?_⟩
      show (do
        let i ← pyIndex alph x
        let y := ((a : ℤ) * (i : ℤ) + (b : ℤ)).fmod (alph.length : ℤ)
        pure (alph.getD y.toNat 'a') : Except String Char) = _
      rw [show pyIndex alph x = .ok (List.indexOf x alph) from if_pos hx2,
        ok_bind]
      rfl)
    (fun x hx => by
      have hx2 : ¬ x ∈ alph := hx
      show (do
        let i ← pyIndex alph x
        let y := ((a : ℤ) * (i : ℤ) + (b : ℤ)).fmod (alph.length : ℤ)
        pure (alph.getD y.toNat 'a') : Except String Char) = _
      rw [show pyIndex alph x = .error (notInListMsg x) from if_neg hx2]
      rfl)
    text hbad
  refine ⟨c, h1, h2, ?_⟩
  unfold Affine.encrypt
  rw [if_neg (by rw [hfst]; exact fun h => h rfl)]
  exact h3

/-- Affine decryption surfaces an out-of-alphabet ciphertext symbol by name
(valid key, nonempty alphabet). -/
theorem affine_decrypt_unknown (alph text : List Char) (a b : ℕ)
    (hm : 0 < alph.length)
    (hcop : Nat.Coprime a alph.length) (hbad : ∃ c ∈ text, c ∉ alph) :
    ∃ c, c ∈ text ∧ c ∉ alph ∧
      Affine.decrypt alph text (a : ℤ) (b : ℤ) = .error (notInListMsg c) := by
  have hfst : (euclidean_algorithm_extended (a : ℤ) (alph.length : ℤ)).1 = 1 := by
    rw [(egcd_gcd_bezout a alph.length).1, hcop, Nat.cast_one]
  obtain ⟨c, h1, h2, h3⟩ := @mapM_find_error Char Char
    (fun ch => do
      let y ← pyIndex alph ch
      let x := (((euclidean_algorithm_extended (a : ℤ) (alph.length : ℤ)).2.1.fmod
        (alph.length : ℤ)) * ((y : ℤ) - (b : ℤ))).fmod (alph.length : ℤ)
      pure (alph.getD x.toNat 'a'))
    (fun c => c ∈ alph)
    notInListMsg
    (fun x hx => by
      have hx2 : x ∈ alph := hx
      refine ⟨alph.getD ((((euclidean_algorithm_extended (a : ℤ)
        (alph.length : ℤ)).2.1.fmod (alph.length : ℤ)) *
        ((List.indexOf x alph : ℤ) - (b : ℤ))).fmod
        (alph.length : ℤ)).toNat 'a', ?_⟩
      show (do
        let y ← pyIndex alph x
        let z := (((euclidean_algorithm_extended (a : ℤ)
          (alph.length : ℤ)).2.1.fmod (alph.length : ℤ)) *
          ((y : ℤ) - (b : ℤ))).fmod (alph.length : ℤ)
        pure (alph.getD z.toNat 'a') : Except String Char) = _
      rw [show pyIndex alph x = .ok (List.indexOf x alph) from if_pos hx2,
        ok_bind]
      rfl)
    (fun x hx => by
      have hx2 : ¬ x ∈ alph := hx
      show (do
        let y ← pyIndex alph x
        let z := (((euclidean_algorithm_extended (a : ℤ)
          (alph.length : ℤ)).2.1.fmod (alph.length : ℤ)) *
          ((y : ℤ) - (b : ℤ))).fmod (alph.length : ℤ)
        pure (alph.getD z.toNat 'a') : Except String Char) = _
      rw [show pyIndex alph x = .error (notInListMsg x) from if_neg hx2]
      rfl)
    text hbad
  refine ⟨c, h1, h2, ?_⟩
  unfold Affine.decrypt
  rw [if_neg (by rw [hfst]; exact fun h => h rfl),
    if_neg (by positivity : ¬ ((alph.length : ℤ)) = 0)]
  exact h3

/-- The key character the Vigenere loop reads at any position belongs to the
alphabet whenever the key is a nonempty word over the alphabet. -/
theorem vigenere_keychar_mem (alph key : List Char) (i : ℕ)
    (hkne : key ≠ []) (hkeyal : ∀ k ∈ key, k ∈ alph) :
    key.getD (i % key.length) 'a' ∈ alph := by
  have hlt : i % key.length < key.length :=
    Nat.mod_lt _ (List.length_pos.mpr hkne)
  rw [List.getD_eq_get key 'a' hlt]
  exact hkeyal _ (List.get_mem key _ hlt)

/-- Vigenere encryption surfaces an out-of-alphabet text symbol by name
(nonempty key over the alphabet). -/
theorem vigenere_encrypt_unknown (alph text key : List Char)
    (hkne : key ≠ []) (hkeyal : ∀ k ∈ key, k ∈ alph)
    (hbad : ∃ c ∈ text, c ∉ alph) :
    ∃ c, c ∈ text ∧ c ∉ alph ∧
      Vigenere.encrypt alph text key = .error (notInListMsg c) := by
  have hklen : ¬ key.length = 0 := fun h => hkne (List.length_eq_zero.mp h)
  have hbadp : ∃ p ∈ text.enum, ¬ (p.2 ∈ alph) := by
    obtain ⟨c, hc1, hc2⟩ := hbad
    obtain ⟨p, hp1, hp2⟩ := exists_enum_of_mem hc1
    exact ⟨p, hp1, by rw [hp2]; exact hc2⟩
  obtain ⟨p, h1, h2, h3⟩ := @mapM_find_error (ℕ × Char) Char
    (fun p => do
      let si ← pyIndex alph p.2
      if key.length = 0 then
        Except.error zeroDivisionMsg
      else do
        let ki ← pyIndex alph (key.getD (p.1 % key.length) 'a')
        pure (alph.getD ((si + ki) % alph.length) 'a'))
    (fun p : ℕ × Char => p.2 ∈ alph)
    (fun p => notInListMsg p.2)
    (fun x hx => by
      have hx2 : x.2 ∈ alph := hx
      refine ⟨alph.getD ((List.indexOf x.2 alph +
        List.indexOf (key.getD (x.1 % key.length) 'a') alph) %
        alph.length) 'a', ?_⟩
      show (do
        let si ← pyIndex alph x.2
        if key.length = 0 then Except.error zeroDivisionMsg
        else do
          let ki ← pyIndex alph (key.getD (x.1 % key.length) 'a')
          pure (alph.getD ((si + ki) % alph.length) 'a') :
          Except String Char) = _
      rw [show pyIndex alph x.2 = .ok (List.indexOf x.2 alph) from if_pos hx2,
        ok_bind, if_neg hklen,
        show pyIndex alph (key.getD (x.1 % key.length) 'a') =
          .ok (List.indexOf (key.getD (x.1 % key.length) 'a') alph) from
          if_pos (vigenere_keychar_mem alph key x.1 hkne hkeyal), ok_bind]
      rfl)
    (fun x hx => by
      have hx2 : ¬ x.2 ∈ alph := hx
      show (do
        let si ← pyIndex alph x.2
        if key.length = 0 then Except.error zeroDivisionMsg
        else do
          let ki ← pyIndex alph (key.getD (x.1 % key.length) 'a')
          pure (alph.getD ((si + ki) % alph.length) 'a') :
          Except String Char) = _
      rw [show pyIndex alph x.2 = .error (notInListMsg x.2) from if_neg hx2]
      rfl)
    text.enum hbadp
  refine ⟨p.2, ?_, h2, h3⟩
  have hmm : p.2 ∈ text.enum.map Prod.snd := List.mem_map_of_mem Prod.snd h1
  rwa [show text.enum = text.enumFrom 0 from rfl, List.enumFrom_map_snd] at hmm

/-- Vigenere decryption surfaces an out-of-alphabet text symbol by name
(nonempty key over the alphabet). -/
theorem vigenere_decrypt_unknown (alph text key : List Char)
    (hkne : key ≠ []) (hkeyal : ∀ k ∈ key, k ∈ alph)
    (hbad : ∃ c ∈ text, c ∉ alph) :
    ∃ c, c ∈ text ∧ c ∉ alph ∧
      Vigenere.decrypt alph text key = .error (notInListMsg c) := by
  have hklen : ¬ key.length = 0 := fun h => hkne (List.length_eq_zero.mp h)
  have hbadp : ∃ p ∈ text.enum, ¬ (p.2 ∈ alph) := by
    obtain ⟨c, hc1, hc2⟩ := hbad
    obtain ⟨p, hp1, hp2⟩ := exists_enum_of_mem hc1
    exact ⟨p, hp1, by rw [hp2]; exact hc2⟩
  obtain ⟨p, h1, h2, h3⟩ := @mapM_find_error (ℕ × Char) Char
    (fun p => do
      let si ← pyIndex alph p.2
      if key.length = 0 then
        Except.error zeroDivisionMsg
      else do
        let ki ← pyIndex alph (key.getD (p.1 % key.length) 'a')
        pure (alph.getD (((si : ℤ) - (ki : ℤ)).fmod
          (alph.length : ℤ)).toNat 'a'))
    (fun p : ℕ × Char => p.2 ∈ alph)
    (fun p => notInListMsg p.2)
    (fun x hx => by
      have hx2 : x.2 ∈ alph := hx
      refine ⟨alph.getD (((List.indexOf x.2 alph : ℤ) -
        (List.indexOf (key.getD (x.1 % key.length) 'a') alph : ℤ)).fmod
        (alph.length : ℤ)).toNat 'a', ?_⟩
      show (do
        let si ← pyIndex alph x.2
        if key.length = 0 then Except.error zeroDivisionMsg
        else do
          let ki ← pyIndex alph (key.getD (x.1 % key.length) 'a')
          pure (alph.getD (((si : ℤ) - (ki : ℤ)).fmod
            (alph.length : ℤ)).toNat 'a') : Except String Char) = _
      rw [show pyIndex alph x.2 = .ok (List.indexOf x.2 alph) from if_pos hx2,
        ok_bind, if_neg hklen,
        show pyIndex alph (key.getD (x.1 % key.length) 'a') =
          .ok (List.indexOf (key.getD (x.1 % key.length) 'a') alph) from
          if_pos (vigenere_keychar_mem alph key x.1 hkne hkeyal), ok_bind]
      rfl)
    (fun x hx => by
      have hx2 : ¬ x.2 ∈ alph := hx
      show (do
        let si ← pyIndex alph x.2
        if key.length = 0 then Except.error zeroDivisionMsg
        else do
          let ki ← pyIndex alph (key.getD (x.1 % key.length) 'a')
          pure (alph.getD (((si : ℤ) - (ki : ℤ)).fmod
            (alph.length : ℤ)).toNat 'a') : Except String Char) = _
      rw [show pyIndex alph x.2 = .error (notInListMsg x.2) from if_neg hx2]
      rfl)
    text.enum hbadp
  refine ⟨p.2, ?_, h2, h3⟩
  have hmm : p.2 ∈ text.enum.map Prod.snd := List.mem_map_of_mem Prod.snd h1
  rwa [show text.enum = text.enumFrom 0 from rfl, List.enumFrom_map_snd] at hmm

theorem encPair_ok (alph : List Char) (hnd : alph.Nodup) (a b : ℤ)
    (p : Char × Char) (h1 : p.1 ∈ alph) (h2 : p.2 ∈ alph) :
    ∃ y, AffineBigram.encPair alph a b p = .ok y := by
  unfold AffineBigram.encPair
  rw [idxLookup_mem alph hnd p.1 h1, ok_bind, idxLookup_mem alph hnd p.2 h2,
    ok_bind]
  exact ⟨_, rfl⟩

theorem encPair_err1 (alph : List Char) (a b : ℤ) (p : Char × Char)
    (h1 : p.1 ∉ alph) :
    AffineBigram.encPair alph a b p = .error (bigramCharMsg p.1) := by
  unfold AffineBigram.encPair
  rw [idxLookup_not_mem alph p.1 h1]
  rfl

theorem encPair_err2 (alph : List Char) (hnd : alph.Nodup) (a b : ℤ)
    (p : Char × Char) (h1 : p.1 ∈ alph) (h2 : p.2 ∉ alph) :
    AffineBigram.encPair alph a b p = .error (bigramCharMsg p.2) := by
  unfold AffineBigram.encPair
  rw [idxLookup_mem alph hnd p.1 h1, ok_bind, idxLookup_not_mem alph p.2 h2]
  rfl

theorem decPair_ok (alph : List Char) (hnd : alph.Nodup) (aInv b : ℤ)
    (p : Char × Char) (h1 : p.1 ∈ alph) (h2 : p.2 ∈ alph) :
    ∃ y, AffineBigram.decPair alph aInv b p = .ok y := by
  unfold AffineBigram.decPair
  rw [idxLookup_mem alph hnd p.1 h1, ok_bind, idxLookup_mem alph hnd p.2 h2,
    ok_bind]
  exact ⟨_, rfl⟩

theorem decPair_err1 (alph : List Char) (aInv b : ℤ) (p : Char × Char)
    (h1 : p.1 ∉ alph) :
    AffineBigram.decPair alph aInv b p = .error (bigramCharMsg p.1) := by
  unfold AffineBigram.decPair
  rw [idxLookup_not_mem alph p.1 h1]
  rfl

theorem decPair_err2 (alph : List Char) (hnd : alph.Nodup) (aInv b : ℤ)
    (p : Char × Char) (h1 : p.1 ∈ alph) (h2 : p.2 ∉ alph) :
    AffineBigram.decPair alph aInv b p = .error (bigramCharMsg p.2) := by
  unfold AffineBigram.decPair
  rw [idxLookup_mem alph hnd p.1 h1, ok_bind, idxLookup_not_mem alph p.2 h2]
  rfl

/-- A bigram `mapM` whose body looks symbols up in the alphabet fails naming
some offending symbol of the pair list. -/
theorem bigram_pairs_mapM_error {f : Char × Char → Except String (List Char)}
    (alph : List Char)
    (hgood : ∀ p : Char × Char, p.1 ∈ alph → p.2 ∈ alph → ∃ y, f p = .ok y)
    (hbad1 : ∀ p : Char × Char, p.1 ∉ alph → f p = .error (bigramCharMsg p.1))
    (hbad2 : ∀ p : Char × Char, p.1 ∈ alph → p.2 ∉ alph →
      f p = .error (bigramCharMsg p.2))
    (ps : List (Char × Char))
    (hbadp : ∃ p ∈ ps, ¬ (p.1 ∈ alph ∧ p.2 ∈ alph)) :
    ∃ p, p ∈ ps ∧ ¬ (p.1 ∈ alph ∧ p.2 ∈ alph) ∧
      ps.mapM f = .error
        (if p.1 ∈ alph then bigramCharMsg p.2 else bigramCharMsg p.1) := by
  exact @mapM_find_error (Char × Char) (List Char) f
    (fun p : Char × Char => p.1 ∈ alph ∧ p.2 ∈ alph)
    (fun p => if p.1 ∈ alph then bigramCharMsg p.2 else bigramCharMsg p.1)
    (fun p hp => hgood p hp.1 hp.2)
    (fun p hp => by
      have hp2 : ¬ (p.1 ∈ alph ∧ p.2 ∈ alph) := hp
      show f p = Except.error
        (if p.1 ∈ alph then bigramCharMsg p.2 else bigramCharMsg p.1)
      by_cases h1 : p.1 ∈ alph
      · rw [if_pos h1]
        exact hbad2 p h1 (fun h2 => hp2 ⟨h1, h2⟩)
      · rw [if_neg h1]
        exact hbad1 p h1)
    ps hbadp

/-- From a bad pair drawn from a text, extract the offending character named
by the error. -/
theorem bad_pair_char (alph t : List Char) (p : Char × Char)
    (hp1 : p.1 ∈ t) (hp2 : p.2 ∈ t) (hnp : ¬ (p.1 ∈ alph ∧ p.2 ∈ alph)) :
    ∃ c, c ∈ t ∧ c ∉ alph ∧
      (if p.1 ∈ alph then bigramCharMsg p.2 else bigramCharMsg p.1) =
        bigramCharMsg c := by
  by_cases h : p.1 ∈ alph
  · exact ⟨p.2, hp2, fun hc => hnp ⟨h, hc⟩, by rw [if_pos h]⟩
  · exact ⟨p.1, hp1, h, by rw [if_neg h]⟩

/-- The pad resolution succeeds on a nonempty alphabet, yielding the given
pad or the alphabet's first symbol. -/
theorem resolvePad_ok (alph : List Char) (pad : Option Char)
    (halne : alph ≠ []) :
    resolvePad alph pad = .ok (pad.getD (alph.headD 'a')) := by
  match pad with
  | none =>
    match alph, halne with
    | c :: rest, _ => rfl
  | some p => rfl

/-- The resolved pad character belongs to the alphabet when the supplied pad
does (or is defaulted from a nonempty alphabet). -/
theorem resolvePad_mem (alph : List Char) (pad : Option Char)
    (halne : alph ≠ []) (hpad : ∀ p ∈ pad, p ∈ alph) :
    pad.getD (alph.headD 'a') ∈ alph := by
  match pad, hpad with
  | none, _ =>
    match alph, halne with
    | c :: rest, _ => simp [Option.getD, List.headD]
  | some p, hp => simpa using hp p rfl

/-- A bigram `mapM` over a pair decomposition that covers the text fails
naming an out-of-alphabet character of the text. -/
theorem bigram_pairslist_err {f : Char × Char → Except String (List Char)}
    (alph t : List Char) (ps : List (Char × Char))
    (hgood : ∀ p : Char × Char, p.1 ∈ alph → p.2 ∈ alph → ∃ y, f p = .ok y)
    (hbad1 : ∀ p : Char × Char, p.1 ∉ alph → f p = .error (bigramCharMsg p.1))
    (hbad2 : ∀ p : Char × Char, p.1 ∈ alph → p.2 ∉ alph →
      f p = .error (bigramCharMsg p.2))
    (hmemp : ∀ p ∈ ps, p.1 ∈ t ∧ p.2 ∈ t)
    (hcover : ∀ c ∈ t, ∃ p ∈ ps, c = p.1 ∨ c = p.2)
    (hbad : ∃ c ∈ t, c ∉ alph) :
    ∃ c, c ∈ t ∧ c ∉ alph ∧ ps.mapM f = .error (bigramCharMsg c) := by
  obtain ⟨c0, hc0, hc0n⟩ := hbad
  obtain ⟨p0, hp0, hor⟩ := hcover c0 hc0
  have hnp0 : ¬ (p0.1 ∈ alph ∧ p0.2 ∈ alph) := by
    rintro ⟨ha1, ha2⟩
    rcases hor with h | h
    · exact hc0n (h ▸ ha1)
    · exact hc0n (h ▸ ha2)
  obtain ⟨p, hp, hnp, herr⟩ := bigram_pairs_mapM_error alph hgood hbad1 hbad2
    ps ⟨p0, hp0, hnp0⟩
  obtain ⟨c, hct, hcal, hmsg⟩ := bad_pair_char alph t p (hmemp p hp).1
    (hmemp p hp).2 hnp
  exact ⟨c, hct, hcal, by rw [herr, hmsg]⟩

/-- Non-overlapping affine-bigram encryption surfaces an out-of-alphabet
symbol of the plaintext by name (valid key, valid pad, nonempty duplicate-free
alphabet). -/
theorem bigram_encrypt_noncross_unknown (alph text : List Char) (a b : ℕ)
    (pad : Option Char) (hnd : alph.Nodup) (hm : 0 < alph.length)
    (hcop : Nat.Coprime a (alph.length * alph.length))
    (hpad : ∀ p ∈ pad, p ∈ alph)
    (hbad : ∃ c ∈ text, c ∉ alph) :
    ∃ c, c ∈ text ∧ c ∉ alph ∧
      AffineBigram.encrypt alph text (a : ℤ) (b : ℤ) false pad =
        .error (bigramCharMsg c) := by
  have halne : alph ≠ [] := List.length_pos.mp hm
  have hfst : (euclidean_algorithm_extended (a : ℤ)
      ((alph.length : ℤ) * (alph.length : ℤ))).1 = 1 := by
    rw [show ((alph.length : ℤ) * (alph.length : ℤ)) =
      ((alph.length * alph.length : ℕ) : ℤ) by push_cast; ring]
    rw [(egcd_gcd_bezout a (alph.length * alph.length)).1, hcop, Nat.cast_one]
  by_cases hpar : text.length % 2 = 1
  · have hpadc : pad.getD (alph.headD 'a') ∈ alph :=
      resolvePad_mem alph pad halne hpad
    have heven2 : (text ++ [pad.getD (alph.headD 'a')]).length % 2 = 0 := by
      rw [List.length_append]
      simp
      omega
    have hbad2 : ∃ c ∈ text ++ [pad.getD (alph.headD 'a')], c ∉ alph := by
      obtain ⟨c, h1, h2⟩ := hbad
      exact ⟨c, List.mem_append_left _ h1, h2⟩
    obtain ⟨c, hct, hcal, herr⟩ := bigram_pairslist_err alph
      (text ++ [pad.getD (alph.headD 'a')])
      (chunks2 (text ++ [pad.getD (alph.headD 'a')]))
      (encPair_ok alph hnd (a : ℤ) (b : ℤ))
      (encPair_err1 alph (a : ℤ) (b : ℤ))
      (encPair_err2 alph hnd (a : ℤ) (b : ℤ))
      (mem_chunks2 _) (chunks2_covers _ heven2) hbad2
    have hctext : c ∈ text := by
      rcases List.mem_append.mp hct with h | h
      · exact h
      · exact absurd (List.mem_singleton.mp h ▸ hpadc) hcal
    refine ⟨c, hctext, hcal, ?_⟩
    unfold AffineBigram.encrypt
    rw [if_neg (by rw [hfst]; exact fun h => h rfl)]
    simp only [reduceIte]
    rw [if_pos hpar, resolvePad_ok alph pad halne, ok_bind, if_pos hpadc,
      ok_bind, herr]
    rfl
  · have heven : text.length % 2 = 0 := by omega
    obtain ⟨c, hct, hcal, herr⟩ := bigram_pairslist_err alph text
      (chunks2 text)
      (encPair_ok alph hnd (a : ℤ) (b : ℤ))
      (encPair_err1 alph (a : ℤ) (b : ℤ))
      (encPair_err2 alph hnd (a : ℤ) (b : ℤ))
      (mem_chunks2 _) (chunks2_covers _ heven) hbad
    refine ⟨c, hct, hcal, ?_⟩
    unfold AffineBigram.encrypt
    rw [if_neg (by rw [hfst]; exact fun h => h rfl)]
    simp only [reduceIte]
    rw [if_neg hpar, ok_bind, herr]
    rfl

/-- Crossing affine-bigram encryption surfaces an out-of-alphabet symbol of
a plaintext of length at least 2 by name. -/
theorem bigram_encrypt_crossing_unknown (alph text : List Char) (a b : ℕ)
    (hnd : alph.Nodup)
    (hcop : Nat.Coprime a (alph.length * alph.length))
    (hlen2 : 2 ≤ text.length)
    (hbad : ∃ c ∈ text, c ∉ alph) :
    ∃ c, c ∈ text ∧ c ∉ alph ∧
      AffineBigram.encrypt alph text (a : ℤ) (b : ℤ) true none =
        .error (bigramCharMsg c) := by
  have hfst : (euclidean_algorithm_extended (a : ℤ)
      ((alph.length : ℤ) * (alph.length : ℤ))).1 = 1 := by
    rw [show ((alph.length : ℤ) * (alph.length : ℤ)) =
      ((alph.length * alph.length : ℕ) : ℤ) by push_cast; ring]
    rw [(egcd_gcd_bezout a (alph.length * alph.length)).1, hcop, Nat.cast_one]
  obtain ⟨c, hct, hcal, herr⟩ := bigram_pairslist_err alph text
    (pairsCross text)
    (encPair_ok alph hnd (a : ℤ) (b : ℤ))
    (encPair_err1 alph (a : ℤ) (b : ℤ))
    (encPair_err2 alph hnd (a : ℤ) (b : ℤ))
    (mem_pairsCross _) (pairsCross_covers _ hlen2) hbad
  refine ⟨c, hct, hcal, ?_⟩
  unfold AffineBigram.encrypt
  rw [if_neg (by rw [hfst]; exact fun h => h rfl)]
  simp only [reduceIte]
  rw [if_neg (by omega : ¬ text.length < 2), herr]
  rfl

/-- Non-overlapping affine-bigram decryption surfaces an out-of-alphabet
symbol of an even-length ciphertext by name. -/
theorem bigram_decrypt_noncross_unknown (alph text : List Char) (a b : ℕ)
    (hnd : alph.Nodup) (hm : 0 < alph.length)
    (hcop : Nat.Coprime a (alph.length * alph.length))
    (heven : text.length % 2 = 0)
    (hbad : ∃ c ∈ text, c ∉ alph) :
    ∃ c, c ∈ text ∧ c ∉ alph ∧
      AffineBigram.affine_bigram_decrypt alph text (a : ℤ) (b : ℤ) false =
        .error (bigramCharMsg c) := by
  have hfst : (euclidean_algorithm_extended (a : ℤ)
      ((alph.length : ℤ) * (alph.length : ℤ))).1 = 1 := by
    rw [show ((alph.length : ℤ) * (alph.length : ℤ)) =
      ((alph.length * alph.length : ℕ) : ℤ) by push_cast; ring]
    rw [(egcd_gcd_bezout a (alph.length * alph.length)).1, hcop, Nat.cast_one]
  obtain ⟨c, hct, hcal, herr⟩ := bigram_pairslist_err alph text
    (chunks2 text)
    (decPair_ok alph hnd ((euclidean_algorithm_extended (a : ℤ)
      ((alph.length : ℤ) * (alph.length : ℤ))).2.1.fmod
      ((alph.length : ℤ) * (alph.length : ℤ))) (b : ℤ))
    (decPair_err1 alph ((euclidean_algorithm_extended (a : ℤ)
      ((alph.length : ℤ) * (alph.length : ℤ))).2.1.fmod
      ((alph.length : ℤ) * (alph.length : ℤ))) (b : ℤ))
    (decPair_err2 alph hnd ((euclidean_algorithm_extended (a : ℤ)
      ((alph.length : ℤ) * (alph.length : ℤ))).2.1.fmod
      ((alph.length : ℤ) * (alph.length : ℤ))) (b : ℤ))
    (mem_chunks2 _) (chunks2_covers _ heven) hbad
  refine ⟨c, hct, hcal, ?_⟩
  unfold AffineBigram.affine_bigram_decrypt
  rw [if_neg (by rw [hfst]; exact fun h => h rfl)]
  rw [if_neg (by positivity : ¬ ((alph.length : ℤ) * (alph.length : ℤ) = 0))]
  simp only [reduceIte, if_neg (show ¬ text.length % 2 ≠ 0 by omega)]
  rw [herr]
  rfl

/-- Crossing affine-bigram decryption surfaces an out-of-alphabet symbol of
a ciphertext of length at least 2 by name. -/
theorem bigram_decrypt_crossing_unknown (alph text : List Char) (a b : ℕ)
    (hnd : alph.Nodup) (hm : 0 < alph.length)
    (hcop : Nat.Coprime a (alph.length * alph.length))
    (hlen2 : 2 ≤ text.length)
    (hbad : ∃ c ∈ text, c ∉ alph) :
    ∃ c, c ∈ text ∧ c ∉ alph ∧
      AffineBigram.affine_bigram_decrypt alph text (a : ℤ) (b : ℤ) true =
        .error (bigramCharMsg c) := by
  have hfst : (euclidean_algorithm_extended (a : ℤ)
      ((alph.length : ℤ) * (alph.length : ℤ))).1 = 1 := by
    rw [show ((alph.length : ℤ) * (alph.length : ℤ)) =
      ((alph.length * alph.length : ℕ) : ℤ) by push_cast; ring]
    rw [(egcd_gcd_bezout a (alph.length * alph.length)).1, hcop, Nat.cast_one]
  obtain ⟨c, hct, hcal, herr⟩ := bigram_pairslist_err alph text
    (pairsCross text)
    (decPair_ok alph hnd ((euclidean_algorithm_extended (a : ℤ)
      ((alph.length : ℤ) * (alph.length : ℤ))).2.1.fmod
      ((alph.length : ℤ) * (alph.length : ℤ))) (b : ℤ))
    (decPair_err1 alph ((euclidean_algorithm_extended (a : ℤ)
      ((alph.length : ℤ) * (alph.length : ℤ))).2.1.fmod
      ((alph.length : ℤ) * (alph.length : ℤ))) (b : ℤ))
    (decPair_err2 alph hnd ((euclidean_algorithm_extended (a : ℤ)
      ((alph.length : ℤ) * (alph.length : ℤ))).2.1.fmod
      ((alph.length : ℤ) * (alph.length : ℤ))) (b : ℤ))
    (mem_pairsCross _) (pairsCross_covers _ hlen2) hbad
  refine ⟨c, hct, hcal, ?_⟩
  unfold AffineBigram.affine_bigram_decrypt
  rw [if_neg (by rw [hfst]; exact fun h => h rfl)]
  rw [if_neg (by positivity : ¬ ((alph.length : ℤ) * (alph.length : ℤ) = 0))]
  simp only [reduceIte, if_neg (show ¬ text.length < 2 by omega)]
  rw [herr]
  rfl

/-- Claim C8, amended: every cipher primitive surfaces an out-of-alphabet
input symbol with an error naming it — for the monoalphabetic affine cipher
(valid key; decryption additionally needs a nonempty alphabet, else Python
reaches `% 0` first), the polyalphabetic cipher (nonempty key over the
alphabet), and the affine-bigram cipher (duplicate-free nonempty alphabet,
valid key and pad) — EXCEPT that affine-bigram crossing-mode encryption
silently returns the empty string for inputs shorter than two symbols
(see the counterexample; the offending symbol is silently dropped), and the
crossing-mode branches only reach the symbol lookups for inputs of length at
least 2 while the non-overlapping decryption requires even length (an odd
length fails earlier with a length error naming no symbol). -/
theorem C8_unknown_symbol_identified :
    (∀ (alph text : List Char) (a b : ℕ), Nat.Coprime a alph.length →
      (∃ c ∈ text, c ∉ alph) →
      ∃ c, c ∈ text ∧ c ∉ alph ∧
        Affine.encrypt alph text (a : ℤ) (b : ℤ) = .error (notInListMsg c)) ∧
    (∀ (alph text : List Char) (a b : ℕ), 0 < alph.length →
      Nat.Coprime a alph.length → (∃ c ∈ text, c ∉ alph) →
      ∃ c, c ∈ text ∧ c ∉ alph ∧
        Affine.decrypt alph text (a : ℤ) (b : ℤ) = .error (notInListMsg c)) ∧
    (∀ (alph text key : List Char), key ≠ [] → (∀ k ∈ key, k ∈ alph) →
      (∃ c ∈ text, c ∉ alph) →
      ∃ c, c ∈ text ∧ c ∉ alph ∧
        Vigenere.encrypt alph text key = .error (notInListMsg c)) ∧
    (∀ (alph text key : List Char), key ≠ [] → (∀ k ∈ key, k ∈ alph) →
      (∃ c ∈ text, c ∉ alph) →
      ∃ c, c ∈ text ∧ c ∉ alph ∧
        Vigenere.decrypt alph text key = .error (notInListMsg c)) ∧
    (∀ (alph text : List Char) (a b : ℕ) (pad : Option Char), alph.Nodup →
      0 < alph.length → Nat.Coprime a (alph.length * alph.length) →
      (∀ p ∈ pad, p ∈ alph) → (∃ c ∈ text, c ∉ alph) →
      ∃ c, c ∈ text ∧ c ∉ alph ∧
        AffineBigram.encrypt alph text (a : ℤ) (b : ℤ) false pad =
          .error (bigramCharMsg c)) ∧
    (∀ (alph text : List Char) (a b : ℕ), alph.Nodup →
      Nat.Coprime a (alph.length * alph.length) → 2 ≤ text.length →
      (∃ c ∈ text, c ∉ alph) →
      ∃ c, c ∈ text ∧ c ∉ alph ∧
        AffineBigram.encrypt alph text (a : ℤ) (b : ℤ) true none =
          .error (bigramCharMsg c)) ∧
    (∀ (alph text : List Char) (a b : ℕ), alph.Nodup → 0 < alph.length →
      Nat.Coprime a (alph.length * alph.length) → text.length % 2 = 0 →
      (∃ c ∈ text, c ∉ alph) →
      ∃ c, c ∈ text ∧ c ∉ alph ∧
        AffineBigram.affine_bigram_decrypt alph text (a : ℤ) (b : ℤ) false =
          .error (bigramCharMsg c)) ∧
    (∀ (alph text : List Char) (a b : ℕ), alph.Nodup → 0 < alph.length →
      Nat.Coprime a (alph.length * alph.length) → 2 ≤ text.length →
      (∃ c ∈ text, c ∉ alph) →
      ∃ c, c ∈ text ∧ c ∉ alph ∧
        AffineBigram.affine_bigram_decrypt alph text (a : ℤ) (b : ℤ) true =
          .error (bigramCharMsg c)) :=
  ⟨affine_encrypt_unknown,
   fun alph text a b hm => affine_decrypt_unknown alph text a b hm,
   vigenere_encrypt_unknown, vigenere_decrypt_unknown,
   fun alph text a b pad hnd hm => bigram_encrypt_noncross_unknown alph text
     a b pad hnd hm,
   bigram_encrypt_crossing_unknown,
   bigram_decrypt_noncross_unknown,
   bigram_decrypt_crossing_unknown⟩

/-- Counterexample for claim C8 as stated: crossing-mode affine-bigram
encryption of the single out-of-alphabet symbol `'z'` silently returns the
empty string instead of an error naming the symbol. -/
theorem C8_counterexample :
    'z' ∈ (['z'] : List Char) ∧ 'z' ∉ (['a', 'b'] : List Char) ∧
    Nat.Coprime 1 ((['a', 'b'] : List Char).length *
      (['a', 'b'] : List Char).length) ∧
    AffineBigram.encrypt ['a', 'b'] ['z'] ((1 : ℕ) : ℤ) ((0 : ℕ) : ℤ)
      true none = .ok [] := by
  decide

/-- Witness for C8 (amended): the affine cipher rejects a plaintext holding
`'!'` over the Latin alphabet with an error naming `'!'`. -/
theorem C8_unknown_symbol_witness :
    Nat.Coprime 5 latinAlphabet.length ∧
    ('!' ∈ (['h', '!'] : List Char) ∧ '!' ∉ latinAlphabet) ∧
    (∃ c, c ∈ (['h', '!'] : List Char) ∧ c ∉ latinAlphabet ∧
      Affine.encrypt latinAlphabet ['h', '!'] ((5 : ℕ) : ℤ) ((8 : ℕ) : ℤ) =
        .error (notInListMsg c)) :=
  ⟨by decide, ⟨by decide, by decide⟩,
    C8_unknown_symbol_identified.1 latinAlphabet ['h', '!'] 5 8 (by decide)
      ⟨'!', by decide, by decide⟩⟩

/-- A plaintext/ciphertext pair, the element type of the generated corpora
(`{"plaintext": ..., "ciphertext": ...}` in the Python sources). -/
structure TextPair where
  plaintext : List Char
  ciphertext : List Char
deriving DecidableEq

/-- One counting step of the Python dict-counter idiom
`if g in counts: counts[g] += 1 else: counts[g] = 1`. -/
def incrCount (counts : List (List Char × ℕ)) (g : List Char) :
    List (List Char × ℕ) :=
  dictSet counts g (dictGetD counts g 0 + 1)

/-- Embedding of `helper.py: symbol_count(_text)`: character counts sorted by
count descending (stable, as Python's `sorted` with `reverse=True`); keys are
kept as singleton l-gram strings so unigram and bigram tables share a type. -/
def symbol_count (text : List Char) : List (List Char × ℕ) :=
  List.insertionSort (fun x y => y.2 ≤ x.2)
    (text.foldl (fun d ch => incrCount d [ch]) [])

/-- The loop of `helper.py: bigram_count_crossing`: walk the characters,
pair each with `_text[step]`, and advance `step` only while it has not
reached `len(_text) - 1`.  An out-of-range `_text[step]` is Python's
`IndexError` (reached exactly on length-1 input, where `step` starts at 1). -/
def bigram_count_crossing_go (full : List Char) :
    ℕ → List (List Char × ℕ) → List Char → Except String (List (List Char × ℕ))
  | _, counts, [] => .ok counts
  | step, counts, c :: rest =>
    match full.get? step with
    | none => .error indexErrorMsg
    | some c2 =>
      bigram_count_crossing_go full
        (if step ≠ full.length - 1 then step + 1 else step)
        (incrCount counts [c, c2]) rest

/-- Embedding of `helper.py: bigram_count_crossing(_text)`: overlapping
bigram counts sorted by count descending. -/
def bigram_count_crossing (text : List Char) :
    Except String (List (List Char × ℕ)) :=
  (bigram_count_crossing_go text 1 [] text).map
    (fun counts => List.insertionSort (fun x y => y.2 ≤ x.2) counts)

/-- Embedding of `helper.py: entropy_calculate(sequence)` over exact
rationals; `log2f` abstracts the float function `math.log2`, which is not
expressible exactly (the claims settled against this definition do not
depend on its values).  An empty sequence reproduces the `IndexError` at
`sequence[0][0]`; an all-zero count total reproduces the
`ZeroDivisionError` at `freq / sequence_count`. -/
def entropy_calculate (log2f : ℚ → ℚ) (sequence : List (List Char × ℕ)) :
    Except String ℚ :=
  match sequence with
  | [] => .error indexErrorMsg
  | (g0, _) :: _ =>
    let n := g0.length
    let sequence_count := (sequence.map Prod.snd).sum
    if sequence_count = 0 then .error zeroDivisionMsg
    else
      let probability_H :=
        sequence.map (fun s => (s.2 : ℚ) / (sequence_count : ℚ))
      let H := - (probability_H.map (fun p => p * log2f p)).sum
      .ok (if n = 2 then H / 2 else H)

/-- Python `int(q)` on a rational: truncation toward zero. -/
def pytrunc (q : ℚ) : ℤ :=
  if 0 ≤ q then ⌊q⌋ else -⌊-q⌋

/-- Python list indexing `l[i]` with negative-index wrap-around and an
`IndexError` out of range. -/
def pyGet (l : List ℚ) (i : ℤ) : Except String ℚ :=
  let j := if i < 0 then i + l.length else i
  if h : 0 ≤ j ∧ j.toNat < l.length then .ok (l.get ⟨j.toNat, h.2⟩)
  else .error indexErrorMsg

/-- Embedding of `helper.py: compute_kH_dynamic(clean_texts_by_L, bigrams,
alpha)`: per length, entropies of all samples, their mean `H_L`, absolute
deviations sorted ascending, and the deviation at index
`int((1 - alpha) * (len(deltas) - 1))` as `k_H(L)`.  Returns the pair of
per-length tables `(result_H, result_kH)`.  A length with no samples
reproduces the `ZeroDivisionError` at `sum(H_values) / len(H_values)`. -/
def compute_kH_dynamic (log2f : ℚ → ℚ)
    (clean_texts_by_L : List (ℕ × List (List Char))) (bigrams : Bool)
    (alpha : ℚ) :
    Except String (List (ℕ × ℚ) × List (ℕ × ℚ)) := do
  let entries ← clean_texts_by_L.mapM (fun e => do
    let H_values ← e.2.mapM (fun sample => do
      let counts ←
        if bigrams then bigram_count_crossing sample
        else pure (symbol_count sample)
      entropy_calculate log2f counts)
    if H_values.length = 0 then
      Except.error zeroDivisionMsg
    else
      let H_mean := H_values.sum / (H_values.length : ℚ)
      let deltas := List.insertionSort (fun x y => x ≤ y)
        (H_values.map (fun H => |H - H_mean|))
      let idx := pytrunc ((1 - alpha) * ((deltas.length : ℚ) - 1))
      let kH ← pyGet deltas idx
      pure ((e.1, H_mean), (e.1, kH)))
  pure (entries.map Prod.fst, entries.map Prod.snd)

/-- Total number of counted occurrences in a counts table. -/
def countsTotal (d : List (List Char × ℕ)) : ℕ := (d.map Prod.snd).sum

theorem incrCount_total : ∀ (d : List (List Char × ℕ)) (g : List Char),
    countsTotal (incrCount d g) = countsTotal d + 1 := by
  intro d
  induction d with
  | nil => intro g; rfl
  | cons hd tl ih =>
    intro g
    by_cases h : hd.1 = g
    · simp only [incrCount, dictSet, dictGetD, dictGet?, if_pos h, countsTotal,
        List.map_cons, List.sum_cons]
      have hg : ∀ (x : ℕ), (some x).getD 0 = x := fun _ => rfl
      rw [hg]
      omega
    · have ihg := ih g
      simp only [incrCount, dictSet, dictGetD, dictGet?, if_neg h, countsTotal,
        List.map_cons, List.sum_cons] at ihg ⊢
      omega

theorem bigram_go_spec (full : List Char) :
    ∀ (rest : List Char) (step : ℕ) (counts : List (List Char × ℕ)),
      step < full.length →
      ∃ counts2,
        bigram_count_crossing_go full step counts rest = .ok counts2 ∧
        countsTotal counts2 = countsTotal counts + rest.length := by
  intro rest
  induction rest with
  | nil =>
    intro step counts _
    exact ⟨counts, rfl, by simp⟩
  | cons c rs ih =>
    intro step counts h
    have hget : full.get? step = some (full.get ⟨step, h⟩) := List.get?_eq_get h
    have hstep2 : (if step ≠ full.length - 1 then step + 1 else step) <
        full.length := by
      by_cases hcase : step ≠ full.length - 1
      · rw [if_pos hcase]
        omega
      · rw [if_neg hcase]
        exact h
    obtain ⟨counts2, h1, h2⟩ := ih
      (if step ≠ full.length - 1 then step + 1 else step)
      (incrCount counts [c, full.get ⟨step, h⟩]) hstep2
    refine ⟨counts2, ?_, ?_⟩
    · unfold bigram_count_crossing_go
      rw [hget]
      exact h1
    · rw [h2, incrCount_total]
      simp only [List.length_cons]
      omega

/-- Counterexample for claim C9 as stated: on a length-1 input the crossing
bigram counter indexes past the end of the sequence (`_text[1]`, an
`IndexError`) instead of terminating with counts summing to `len(text)`. -/
theorem C9_counterexample :
    bigram_count_crossing ['a'] = .error indexErrorMsg := by decide

/-- Claim C9, amended: for every text whose length is not 1, the crossing
bigram counter terminates without indexing past the end, and the counted
occurrences sum to `len(text)`; on a length-1 text it raises `IndexError`
(see the counterexample). -/
theorem C9_crossing_total (text : List Char) (hlen : text.length ≠ 1) :
    ∃ counts, bigram_count_crossing text = .ok counts ∧
      (counts.map Prod.snd).sum = text.length := by
  match text, hlen with
  | [], _ =>
    exact ⟨[], rfl, rfl⟩
  | c1 :: c2 :: rest, _ =>
    obtain ⟨counts2, h1, h2⟩ := bigram_go_spec (c1 :: c2 :: rest)
      (c1 :: c2 :: rest) 1 [] (by simp only [List.length_cons]; omega)
    refine ⟨List.insertionSort (fun x y => y.2 ≤ x.2) counts2, ?_, ?_⟩
    · unfold bigram_count_crossing
      rw [h1]
      rfl
    · have hperm : (List.insertionSort (fun x y => y.2 ≤ x.2) counts2).Perm
        counts2 := List.perm_insertionSort _ counts2
      have hsum : ((List.insertionSort (fun x y => y.2 ≤ x.2)
          counts2).map Prod.snd).sum = (counts2.map Prod.snd).sum :=
        (hperm.map Prod.snd).sum_eq
      rw [hsum]
      have := h2
      unfold countsTotal at this
      simpa using this

/-- Witness for C9 (amended): the three-character text "aba". -/
theorem C9_crossing_total_witness :
    (['a', 'b', 'a'] : List Char).length ≠ 1 ∧
    (∃ counts, bigram_count_crossing ['a', 'b', 'a'] = .ok counts ∧
      (counts.map Prod.snd).sum = (['a', 'b', 'a'] : List Char).length) :=
  ⟨by decide, C9_crossing_total ['a', 'b', 'a'] (by decide)⟩

/-- The estimator as claim C6 words it: identical pipeline, but the sorted
deviation is picked at index `round((1-alpha)*(n-1))` instead of the code's
`int(...)` truncation.  (Python's banker's rounding and Mathlib's `round`
agree on the half-integer quantile positions this comparison exercises.) -/
def compute_kH_round_spec (log2f : ℚ → ℚ)
    (clean_texts_by_L : List (ℕ × List (List Char))) (bigrams : Bool)
    (alpha : ℚ) :
    Except String (List (ℕ × ℚ) × List (ℕ × ℚ)) := do
  let entries ← clean_texts_by_L.mapM (fun e => do
    let H_values ← e.2.mapM (fun sample => do
      let counts ←
        if bigrams then bigram_count_crossing sample
        else pure (symbol_count sample)
      entropy_calculate log2f counts)
    if H_values.length = 0 then
      Except.error zeroDivisionMsg
    else
      let H_mean := H_values.sum / (H_values.length : ℚ)
      let deltas := List.insertionSort (fun x y => x ≤ y)
        (H_values.map (fun H => |H - H_mean|))
      let kH ← pyGet deltas (round ((1 - alpha) * ((deltas.length : ℚ) - 1)))
      pure ((e.1, H_mean), (e.1, kH)))
  pure (entries.map Prod.fst, entries.map Prod.snd)

/-- The estimator with the floor-quantile index `⌊(1-alpha)*(n-1)⌋`, the
behaviour the code's `int(...)` truncation realises on the nonnegative
quantile positions arising for `0 ≤ alpha ≤ 1`. -/
def compute_kH_floor_spec (log2f : ℚ → ℚ)
    (clean_texts_by_L : List (ℕ × List (List Char))) (bigrams : Bool)
    (alpha : ℚ) :
    Except String (List (ℕ × ℚ) × List (ℕ × ℚ)) := do
  let entries ← clean_texts_by_L.mapM (fun e => do
    let H_values ← e.2.mapM (fun sample => do
      let counts ←
        if bigrams then bigram_count_crossing sample
        else pure (symbol_count sample)
      entropy_calculate log2f counts)
    if H_values.length = 0 then
      Except.error zeroDivisionMsg
    else
      let H_mean := H_values.sum / (H_values.length : ℚ)
      let deltas := List.insertionSort (fun x y => x ≤ y)
        (H_values.map (fun H => |H - H_mean|))
      let kH := deltas.getD
        (Int.toNat ⌊(1 - alpha) * ((deltas.length : ℚ) - 1)⌋) 0
      pure ((e.1, H_mean), (e.1, kH)))
  pure (entries.map Prod.fst, entries.map Prod.snd)

theorem except_bind_congr {α β : Type} (x : Except String α)
    {f g : α → Except String β} (h : ∀ v, f v = g v) :
    (x >>= f) = (x >>= g) := by
  cases x with
  | error e => rfl
  | ok v => exact h v

/-- The Python index `int((1-alpha)*(n-1))` hits the floor-quantile element
for `0 ≤ alpha ≤ 1` on a nonempty list. -/
theorem pyGet_trunc_quantile (l : List ℚ) (alpha : ℚ) (h0 : 0 ≤ alpha)
    (h1 : alpha ≤ 1) (hl : l.length ≠ 0) :
    pyGet l (pytrunc ((1 - alpha) * ((l.length : ℚ) - 1))) =
      .ok (l.getD (Int.toNat ⌊(1 - alpha) * ((l.length : ℚ) - 1)⌋) 0) := by
  have hL1 : (1 : ℚ) ≤ (l.length : ℚ) := by
    have h2 : 1 ≤ l.length := Nat.one_le_iff_ne_zero.mpr hl
    exact_mod_cast h2
  set q : ℚ := (1 - alpha) * ((l.length : ℚ) - 1) with hqdef
  have hq0 : 0 ≤ q := mul_nonneg (by linarith) (by linarith)
  have hqub : q ≤ (l.length : ℚ) - 1 := by
    have h3 := mul_le_of_le_one_left
      (show (0 : ℚ) ≤ (l.length : ℚ) - 1 by linarith)
      (show (1 - alpha) ≤ 1 by linarith)
    linarith [h3]
  have hfl0 : 0 ≤ ⌊q⌋ := Int.floor_nonneg.mpr hq0
  have hflub : ⌊q⌋.toNat < l.length := by
    have h2 : (⌊q⌋ : ℚ) ≤ q := Int.floor_le q
    have h3 : (⌊q⌋ : ℚ) < (l.length : ℚ) := by linarith
    have h4 : ⌊q⌋ < (l.length : ℤ) := by exact_mod_cast h3
    omega
  unfold pytrunc pyGet
  rw [if_pos hq0]
  simp only [if_neg (not_lt.mpr hfl0)]
  rw [dif_pos ⟨hfl0, hflub⟩, List.getD_eq_get l 0 hflub]

/-- Claim C6, amended: the dynamic entropy-baseline estimator computes, per
length, the sample entropies, their mean `H_L`, and the ascending-sorted
absolute deviations, and returns the deviation at the floor-quantile index
`int((1-alpha)*(n-1))` — truncation, not `round(...)` as claimed (see the
counterexample). -/
theorem C6_quantile_floor (log2f : ℚ → ℚ)
    (clean_texts_by_L : List (ℕ × List (List Char))) (bigrams : Bool)
    (alpha : ℚ) (h0 : 0 ≤ alpha) (h1 : alpha ≤ 1) :
    compute_kH_dynamic log2f clean_texts_by_L bigrams alpha =
      compute_kH_floor_spec log2f clean_texts_by_L bigrams alpha := by
  unfold compute_kH_dynamic compute_kH_floor_spec
  refine congrArg (fun m : Except String (List ((ℕ × ℚ) × (ℕ × ℚ))) =>
    m >>= fun entries =>
      pure (entries.map Prod.fst, entries.map Prod.snd)) ?_
  refine congrArg (fun f => List.mapM f clean_texts_by_L) (funext fun e => ?_)
  refine except_bind_congr _ (fun H_values => ?_)
  by_cases hlen : H_values.length = 0
  · rw [if_pos hlen, if_pos hlen]
  · rw [if_neg hlen, if_neg hlen]
    dsimp only
    have hdl : (List.insertionSort (fun x y => x ≤ y)
        (H_values.map (fun H => |H - H_values.sum / (H_values.length : ℚ)|))).length ≠ 0 := by
      rw [List.length_insertionSort, List.length_map]
      exact hlen
    rw [pyGet_trunc_quantile _ alpha h0 h1 hdl, ok_bind]

set_option maxRecDepth 4000 in
/-- Counterexample for claim C6 as stated: with three samples and
`alpha = 1/4` the quantile position is `1.5`; the code's `int(...)` picks
the sorted deviation at index 1 while the claim's `round(...)` picks index 2
(both Python's banker's rounding and Mathlib's `round` send `1.5` to `2`),
and on this corpus the two deviations differ (`1/6` versus `1/3`). -/
theorem C6_counterexample :
    compute_kH_dynamic (fun q => q)
      [(2, [['a', 'a'], ['a', 'a'], ['a', 'b']])] false (1 / 4) =
      .ok ([(2, -5 / 6)], [(2, 1 / 6)]) ∧
    compute_kH_round_spec (fun q => q)
      [(2, [['a', 'a'], ['a', 'a'], ['a', 'b']])] false (1 / 4) =
      .ok ([(2, -5 / 6)], [(2, 1 / 3)]) := by
  constructor
  · unfold compute_kH_dynamic
    rw [List.mapM_cons, List.mapM_cons, List.mapM_cons, List.mapM_cons,
      List.mapM_nil]
    have hc1 : symbol_count ['a', 'a'] = [(['a'], 2)] := by decide
    have hc2 : symbol_count ['a', 'b'] = [(['a'], 1), (['b'], 1)] := by decide
    have he1 : entropy_calculate (fun q : ℚ => q) [(['a'], 2)] = .ok (-1) := by
      norm_num [entropy_calculate]
    have he2 : entropy_calculate (fun q : ℚ => q) [(['a'], 1), (['b'], 1)] =
        .ok (-(1 / 2)) := by
      norm_num [entropy_calculate]
    simp only [Bool.false_eq_true, if_false, pure_bind, hc1, hc2, he1, he2,
      ok_bind, List.length_cons, List.length_nil, List.sum_cons, List.sum_nil,
      List.map_cons, List.map_nil]
    rw [if_neg (by norm_num : ¬((0 + 1 + 1 + 1 : ℕ) = 0))]
    have hm : ((-1 : ℚ) + (-1 + (-(1 / 2) + 0))) / ((0 + 1 + 1 + 1 : ℕ) : ℚ) = -5 / 6 := by
      norm_num
    rw [hm]
    have hd1 : |(-1 : ℚ) - -5 / 6| = 1 / 6 := by
      rw [abs_of_nonpos (by norm_num)]; norm_num
    have hd2 : |(-(1 / 2) : ℚ) - -5 / 6| = 1 / 3 := by
      rw [abs_of_nonneg (by norm_num)]; norm_num
    rw [hd1, hd2]
    have hs : List.insertionSort (fun x y : ℚ => x ≤ y) [(1 : ℚ) / 6, 1 / 6, 1 / 3] =
        [1 / 6, 1 / 6, 1 / 3] := by
      norm_num [List.insertionSort, List.orderedInsert]
    rw [hs]
    have hpt : pytrunc ((1 - 1 / 4) * ((([(1 : ℚ) / 6, 1 / 6, 1 / 3].length : ℕ) : ℚ) - 1)) = 1 := by
      norm_num [pytrunc, List.length_cons, List.length_nil]
    rw [hpt]
    have hpg : pyGet [(1 : ℚ) / 6, 1 / 6, 1 / 3] 1 = .ok (1 / 6) := by
      norm_num [pyGet, List.get]
    rw [hpg]
    simp only [ok_bind, List.mapM_nil, pure_bind, List.map_cons, List.map_nil]
    rfl
  · unfold compute_kH_round_spec
    rw [List.mapM_cons, List.mapM_cons, List.mapM_cons, List.mapM_cons,
      List.mapM_nil]
    have hc1 : symbol_count ['a', 'a'] = [(['a'], 2)] := by decide
    have hc2 : symbol_count ['a', 'b'] = [(['a'], 1), (['b'], 1)] := by decide
    have he1 : entropy_calculate (fun q : ℚ => q) [(['a'], 2)] = .ok (-1) := by
      norm_num [entropy_calculate]
    have he2 : entropy_calculate (fun q : ℚ => q) [(['a'], 1), (['b'], 1)] =
        .ok (-(1 / 2)) := by
      norm_num [entropy_calculate]
    simp only [Bool.false_eq_true, if_false, pure_bind, hc1, hc2, he1, he2,
      ok_bind, List.length_cons, List.length_nil, List.sum_cons, List.sum_nil,
      List.map_cons, List.map_nil]
    rw [if_neg (by norm_num : ¬((0 + 1 + 1 + 1 : ℕ) = 0))]
    have hm : ((-1 : ℚ) + (-1 + (-(1 / 2) + 0))) / ((0 + 1 + 1 + 1 : ℕ) : ℚ) = -5 / 6 := by
      norm_num
    rw [hm]
    have hd1 : |(-1 : ℚ) - -5 / 6| = 1 / 6 := by
      rw [abs_of_nonpos (by norm_num)]; norm_num
    have hd2 : |(-(1 / 2) : ℚ) - -5 / 6| = 1 / 3 := by
      rw [abs_of_nonneg (by norm_num)]; norm_num
    rw [hd1, hd2]
    have hs : List.insertionSort (fun x y : ℚ => x ≤ y) [(1 : ℚ) / 6, 1 / 6, 1 / 3] =
        [1 / 6, 1 / 6, 1 / 3] := by
      norm_num [List.insertionSort, List.orderedInsert]
    rw [hs]
    have hpt : round ((1 - 1 / 4) * ((([(1 : ℚ) / 6, 1 / 6, 1 / 3].length : ℕ) : ℚ) - 1)) = 2 := by
      norm_num [List.length_cons, List.length_nil, round_eq]
    rw [hpt]
    have hpg : pyGet [(1 : ℚ) / 6, 1 / 6, 1 / 3] 2 = .ok (1 / 3) := by
      norm_num [pyGet, List.get]
    rw [hpg]
    simp only [ok_bind, List.mapM_nil, pure_bind, List.map_cons, List.map_nil]
    rfl

/-- Witness for C6 (amended): a one-sample corpus at `alpha = 1/4`. -/
theorem C6_quantile_floor_witness :
    (0 : ℚ) ≤ 1 / 4 ∧ (1 / 4 : ℚ) ≤ 1 ∧
    compute_kH_dynamic (fun q => q) [(2, [['a', 'b']])] false (1 / 4) =
      compute_kH_floor_spec (fun q => q) [(2, [['a', 'b']])] false (1 / 4) :=
  ⟨by norm_num, by norm_num,
    C6_quantile_floor (fun q => q) [(2, [['a', 'b']])] false (1 / 4)
      (by norm_num) (by norm_num)⟩

/-- Embedding of the nested `_kC_for` of `criteria.py: criteria_structural`:
a scalar tolerance is used directly, a per-length dict is looked up with
default `0.0`.  The Python `float | dict` union becomes a sum type. -/
def kC_for (kC : ℚ ⊕ List (ℕ × ℚ)) (L : ℕ) : ℚ :=
  match kC with
  | .inl c => c
  | .inr d => dictGetD d L 0

/-- Embedding of `criteria.py: criteria_structural(generated_texts,
compressor, kC, baseline_random)`.  The compression backend (`lzma`, `zlib`,
`bz2`) and the UTF-8 encoding of `_compress_ratio` are external library
calls, so the whole per-text compression ratio is abstracted as the function
parameter `ratio`; the decision logic is embedded verbatim: with a baseline
`R_L` a text counts towards H1 when `ratio < R_L - kC_L`, without one when
`ratio ≤ kC_L`. -/
def criteria_structural (ratio : List Char → ℚ)
    (generated_texts : List (ℕ × List TextPair))
    (kC : ℚ ⊕ List (ℕ × ℚ)) (baseline_random : Option (List (ℕ × ℚ))) :
    List (ℕ × (ℕ × ℕ)) :=
  generated_texts.map (fun e =>
    let R_L : Option ℚ := match baseline_random with
      | none => none
      | some b => dictGet? b e.1
    let kC_L := kC_for kC e.1
    let plain_struct := e.2.countP (fun item =>
      match R_L with
      | some R => decide (ratio item.plaintext < R - kC_L)
      | none => decide (ratio item.plaintext ≤ kC_L))
    let cipher_struct := e.2.countP (fun item =>
      match R_L with
      | some R => decide (ratio item.ciphertext < R - kC_L)
      | none => decide (ratio item.ciphertext ≤ kC_L))
    (e.1, (plain_struct, cipher_struct)))

/-- The decision rule as the CLAIM states it (and as the function's own
docstring states it): accept H1 iff the ratio is AT OR ABOVE the cutoff,
`ratio ≥ R_L - kC_L` with a baseline and `ratio ≥ kC` without.  Written from
the spec's words, for comparison with `criteria_structural`. -/
def criteria_structural_claimed (ratio : List Char → ℚ)
    (generated_texts : List (ℕ × List TextPair))
    (kC : ℚ ⊕ List (ℕ × ℚ)) (baseline_random : Option (List (ℕ × ℚ))) :
    List (ℕ × (ℕ × ℕ)) :=
  generated_texts.map (fun e =>
    let R_L : Option ℚ := match baseline_random with
      | none => none
      | some b => dictGet? b e.1
    let kC_L := kC_for kC e.1
    let plain_struct := e.2.countP (fun item =>
      match R_L with
      | some R => decide (ratio item.plaintext ≥ R - kC_L)
      | none => decide (ratio item.plaintext ≥ kC_L))
    let cipher_struct := e.2.countP (fun item =>
      match R_L with
      | some R => decide (ratio item.ciphertext ≥ R - kC_L)
      | none => decide (ratio item.ciphertext ≥ kC_L))
    (e.1, (plain_struct, cipher_struct)))

/-- Claim C2: the code's structural-criterion decision is INVERTED relative
to the claim (and to the docstring in the source).  On a one-pair corpus with
constant compression ratio `1`: with no baseline and absolute threshold
`kC = 0` the code counts `(0, 0)` H1 texts where the claimed `≥` rule counts
`(1, 1)`; with baseline `R_1 = 2` the code counts `(1, 1)` where the claimed
rule counts `(0, 0)`. -/
theorem C2_structural_direction_bug :
    (criteria_structural (fun _ => 1) [(1, [⟨['a'], ['a']⟩])] (.inl 0) none =
        [(1, (0, 0))] ∧
      criteria_structural_claimed (fun _ => 1) [(1, [⟨['a'], ['a']⟩])] (.inl 0)
          none =
        [(1, (1, 1))]) ∧
    (criteria_structural (fun _ => 1) [(1, [⟨['a'], ['a']⟩])] (.inl 0)
          (some [(1, 2)]) =
        [(1, (1, 1))] ∧
      criteria_structural_claimed (fun _ => 1) [(1, [⟨['a'], ['a']⟩])] (.inl 0)
          (some [(1, 2)]) =
        [(1, (0, 0))]) := by
  refine ⟨⟨?_, ?_⟩, ⟨?_, ?_⟩⟩ <;>
    norm_num [criteria_structural, criteria_structural_claimed, kC_for,
      dictGet?, dictGetD, List.countP, List.countP.go]

/-- The sample-count dictionary `n_by_L = dict(zip(len_texts, count_texts))`
of `error_rates.py: calc_error_rates_from_criteria`: Python `zip` truncates
to the shorter list and later duplicate keys overwrite earlier ones. -/
def n_by_L_dict (len_texts count_texts : List ℕ) : List (ℕ × ℕ) :=
  (len_texts.zip count_texts).foldl (fun d p => dictSet d p.1 p.2) []

/-- Embedding of `error_rates.py: calc_error_rates_from_criteria
(criteria_result, len_texts, count_texts)`.  Per entry `(L, (plain, cipher))`
with `n = n_by_L.get(L, 0)`: `alpha = plain / n` and
`beta = (n - cipher) / n` when `n` is nonzero (Python truthiness), both `0.0`
otherwise.  Floats are embedded as exact rationals. -/
def calc_error_rates_from_criteria (criteria_result : List (ℕ × (ℕ × ℕ)))
    (len_texts count_texts : List ℕ) : List (ℕ × (ℚ × ℚ)) :=
  let n_by_L := n_by_L_dict len_texts count_texts
  criteria_result.map (fun e =>
    let n_tests := dictGetD n_by_L e.1 0
    (e.1,
      (if n_tests = 0 then (0 : ℚ) else (e.2.1 : ℚ) / (n_tests : ℚ),
       if n_tests = 0 then (0 : ℚ)
       else ((n_tests : ℚ) - (e.2.2 : ℚ)) / (n_tests : ℚ))))

/-- Claim C3: for every criterion entry `(L, (plain, cipher))` and sample
count `n` for that length, the error-rate evaluator emits
`alpha = plain / n` and `beta = (n - cipher) / n`, and emits `(0, 0)` when
`n = 0` (no division by zero); concretely,
`{10: (3, 7)}, [10], [10]` yields `alpha = beta = 3/10`. -/
theorem C3_error_rates (criteria_result : List (ℕ × (ℕ × ℕ)))
    (len_texts count_texts : List ℕ) :
    (∀ L p c, (L, (p, c)) ∈ criteria_result →
      ((dictGetD (n_by_L_dict len_texts count_texts) L 0 ≠ 0 →
        (L, ((p : ℚ) / ((dictGetD (n_by_L_dict len_texts count_texts) L 0 : ℕ) : ℚ),
          (((dictGetD (n_by_L_dict len_texts count_texts) L 0 : ℕ) : ℚ) - (c : ℚ)) /
            ((dictGetD (n_by_L_dict len_texts count_texts) L 0 : ℕ) : ℚ))) ∈
          calc_error_rates_from_criteria criteria_result len_texts
            count_texts) ∧
      (dictGetD (n_by_L_dict len_texts count_texts) L 0 = 0 →
        (L, ((0 : ℚ), (0 : ℚ))) ∈
          calc_error_rates_from_criteria criteria_result len_texts
            count_texts))) ∧
    calc_error_rates_from_criteria [(10, (3, 7))] [10] [10] =
      [(10, (3 / 10, 3 / 10))] := by
  constructor
  · intro L p c hmem
    constructor
    · intro hn
      refine List.mem_map.mpr ⟨(L, (p, c)), hmem, ?_⟩
      simp only [calc_error_rates_from_criteria, if_neg hn]
    · intro hn
      refine List.mem_map.mpr ⟨(L, (p, c)), hmem, ?_⟩
      simp only [calc_error_rates_from_criteria, if_pos hn]
  · norm_num [calc_error_rates_from_criteria, n_by_L_dict, dictGetD, dictGet?,
      dictSet, List.zip]

/-- Witness for C3: the general part applied to the scenario-D input, with
both hypothesis routes exercised at `n = 10 ≠ 0`. -/
theorem C3_error_rates_witness :
    (10, ((3 : ℚ) / ((dictGetD (n_by_L_dict [10] [10]) 10 0 : ℕ) : ℚ),
      (((dictGetD (n_by_L_dict [10] [10]) 10 0 : ℕ) : ℚ) - (7 : ℚ)) /
        ((dictGetD (n_by_L_dict [10] [10]) 10 0 : ℕ) : ℚ))) ∈
      calc_error_rates_from_criteria [(10, (3, 7))] [10] [10] :=
  ((C3_error_rates [(10, (3, 7))] [10] [10]).1 10 3 7 (by decide)).1
    (by decide)

/-- The overlapping bigram windows `text[i:i+2]` for `i in range(len-1)` of
`criteria.py: criteria_1_3` (bigram mode). -/
def windows2 : List Char → List (List Char)
  | a :: b :: rest => [a, b] :: windows2 (b :: rest)
  | _ => []

/-- One text side of `criteria_1_3` in bigram mode: `total = len(text) - 1`
(an `int`, `-1` on the empty text), `F` counts overlapping bigrams that lie
in the forbidden list, and `F / total` raises `ZeroDivisionError` when
`total = 0` (length-1 text). -/
def forb_freq_bigram (forbidden : List (List Char)) (s : List Char) :
    Except String ℚ :=
  let total : ℤ := (s.length : ℤ) - 1
  let F : ℕ := (windows2 s).countP (fun bg => decide (bg ∈ forbidden))
  if total = 0 then .error zeroDivisionMsg
  else .ok ((F : ℚ) / (total : ℚ))

/-- One text side of `criteria_1_3` in symbol mode: `total = len(text)`,
`F` counts symbols in the forbidden list, `F / total` raises
`ZeroDivisionError` on the empty text. -/
def forb_freq_symbol (forbidden : List Char) (s : List Char) :
    Except String ℚ :=
  let total : ℕ := s.length
  let F : ℕ := s.countP (fun ch => decide (ch ∈ forbidden))
  if total = 0 then .error zeroDivisionMsg
  else .ok ((F : ℚ) / (total : ℚ))

/-- Embedding of `criteria.py: criteria_1_3(generated_texts,
forbidden_symbols, symbols_frequency, forbidden_bigrams, bigrams_frequency)`.
`Kp` sums the reference frequencies of the forbidden l-grams
(`ref_freq.get(g, 0)`); per text, a side counts towards H1 when its observed
forbidden frequency exceeds `Kp`.  Python's `if forbidden_bigrams:`
truthiness becomes a nonemptiness test. -/
def criteria_1_3 (generated_texts : List (ℕ × List TextPair))
    (forbidden_symbols : List Char) (symbols_frequency : List (Char × ℚ))
    (forbidden_bigrams : List (List Char))
    (bigrams_frequency : List (List Char × ℚ)) :
    Except String (List (ℕ × (ℕ × ℕ))) := do
  let Kp : ℚ :=
    if forbidden_bigrams ≠ [] then
      (forbidden_bigrams.map (fun bg => dictGetD bigrams_frequency bg 0)).sum
    else
      (forbidden_symbols.map (fun ch => dictGetD symbols_frequency ch 0)).sum
  generated_texts.mapM (fun e => do
    let flags ← e.2.mapM (fun t => do
      if forbidden_bigrams ≠ [] then
        let Fp ← forb_freq_bigram forbidden_bigrams t.plaintext
        let Fc ← forb_freq_bigram forbidden_bigrams t.ciphertext
        pure (decide (Fp > Kp), decide (Fc > Kp))
      else
        let Fp ← forb_freq_symbol forbidden_symbols t.plaintext
        let Fc ← forb_freq_symbol forbidden_symbols t.ciphertext
        pure (decide (Fp > Kp), decide (Fc > Kp)))
    pure (e.1, (flags.countP Prod.fst, flags.countP Prod.snd)))

/-- Claim C5: FALSIFIED by the code.  Criterion 1.3 computes the observed
forbidden-l-gram frequency as `count / total` and divides unconditionally:
in bigram mode a length-1 text gives `total = len - 1 = 0` and raises
`ZeroDivisionError`; in symbol mode an empty text gives `total = 0` and
raises likewise; and `entropy_calculate` on an empty sequence raises
`IndexError` at `sequence[0][0]`.  None of these degenerate inputs yields a
neutral "no detection" result. -/
theorem C5_zero_total_raises :
    criteria_1_3 [(1, [⟨['a'], ['a']⟩])] [] [] [['a', 'b']] [] =
      .error zeroDivisionMsg ∧
    criteria_1_3 [(0, [⟨[], []⟩])] ['a'] [] [] [] =
      .error zeroDivisionMsg ∧
    ∀ log2f : ℚ → ℚ, entropy_calculate log2f [] = .error indexErrorMsg := by
  refine ⟨by decide, by decide, fun log2f => rfl⟩

/-- Python `KeyError` message for a missing per-length dict key, as raised by
`H[length]` / `kH[length]` in `criteria.py: criteria_3_0`. -/
def keyErrorMsg (L : ℕ) : String := "KeyError: " ++ toString L

/-- `Except.error m >>= f` short-circuits to the same error. -/
theorem error_bind {α β : Type} (m : String) (f : α → Except String β) :
    (Except.error m : Except String α) >>= f = .error m := rfl

/-- The per-text distinct-forbidden-l-gram count of `criteria.py:
criteria_1_1`: in bigram mode (`forbidden_bigrams is not None`) the set
`{bg for bg in forbidden_bigrams if bg in text}` — Python's `in` on strings
is substring containment — and in symbol mode the set
`{ch for ch in forbidden_symbols if ch in text}`; set cardinality becomes
the length of the deduplicated filtered list. -/
def found_count_1_1 (forbidden_symbols : List Char)
    (forbidden_bigrams : Option (List (List Char))) (s : List Char) : ℕ :=
  match forbidden_bigrams with
  | some fb => ((fb.filter (fun bg => decide (bg <:+: s))).dedup).length
  | none =>
    ((forbidden_symbols.filter (fun ch => decide (ch ∈ s))).dedup).length

/-- Embedding of `criteria.py: criteria_1_1(generated_texts, kp,
forbidden_symbols, forbidden_bigrams)`: per length, count the texts on each
side whose number of distinct forbidden l-grams reaches the threshold
(`len(found) >= kp`). -/
def criteria_1_1 (generated_texts : List (ℕ × List TextPair)) (kp : ℤ)
    (forbidden_symbols : List Char)
    (forbidden_bigrams : Option (List (List Char))) :
    List (ℕ × (ℕ × ℕ)) :=
  generated_texts.map (fun e =>
    (e.1,
      (e.2.countP (fun t => decide
        (kp ≤ (found_count_1_1 forbidden_symbols forbidden_bigrams
          t.plaintext : ℤ))),
       e.2.countP (fun t => decide
        (kp ≤ (found_count_1_1 forbidden_symbols forbidden_bigrams
          t.ciphertext : ℤ))))))

/-- The per-text present-top-l-gram count of `criteria.py: criteria_5_1`:
`top` is the first `j` reference l-grams; in bigram mode
(`bigrams_frequency` truthy) the present set collects overlapping bigram
windows `p[i:i+2]` that lie in `top_set`, in symbol mode the characters of
the text that lie in `top_set`; set cardinality = deduplicated filter
length. -/
def present_count_5_1 (j : ℕ) (symbols_frequency : List (Char × ℚ))
    (bigrams_frequency : List (List Char × ℚ)) (s : List Char) : ℕ :=
  if bigrams_frequency ≠ [] then
    ((((bigrams_frequency.map Prod.fst).take j).dedup).filter
      (fun bg => decide (bg ∈ windows2 s))).length
  else
    ((((symbols_frequency.map Prod.fst).take j).dedup).filter
      (fun ch => decide (ch ∈ s))).length

/-- Embedding of `criteria.py: criteria_5_1(generated_texts, j, kempt,
symbols_frequency, bigrams_frequency)`: per length, count the texts on each
side with `f_empty = j - len(present) >= kempt`. -/
def criteria_5_1 (generated_texts : List (ℕ × List TextPair)) (j : ℕ)
    (kempt : ℤ) (symbols_frequency : List (Char × ℚ))
    (bigrams_frequency : List (List Char × ℚ)) :
    List (ℕ × (ℕ × ℕ)) :=
  generated_texts.map (fun e =>
    (e.1,
      (e.2.countP (fun t => decide
        (kempt ≤ (j : ℤ) - (present_count_5_1 j symbols_frequency
          bigrams_frequency t.plaintext : ℤ))),
       e.2.countP (fun t => decide
        (kempt ≤ (j : ℤ) - (present_count_5_1 j symbols_frequency
          bigrams_frequency t.ciphertext : ℤ))))))

/-- The `H[length] if isinstance(H, dict) else H` lookup of `criteria.py:
criteria_3_0`; a missing dict key raises `KeyError`. -/
def scalar_or_dict_get (v : ℚ ⊕ List (ℕ × ℚ)) (L : ℕ) : Except String ℚ :=
  match v with
  | .inl c => .ok c
  | .inr d =>
    match dictGet? d L with
    | some x => .ok x
    | none => .error (keyErrorMsg L)

/-- `count_mode = h.bigram_count_crossing if bigrams else h.symbol_count`
of `criteria.py: criteria_3_0` (the symbol counter cannot fail). -/
def count_mode (bigrams : Bool) (s : List Char) :
    Except String (List (List Char × ℕ)) :=
  if bigrams then bigram_count_crossing s else pure (symbol_count s)

/-- The per-text body of the `criteria_3_0` loop: compute both sides'
l-gram counts and entropies (in Python evaluation order) and flag each side
whose entropy deviates from the reference by more than `kH_curr`. -/
def text_flags_3_0 (log2f : ℚ → ℚ) (bigrams : Bool) (H_curr kH_curr : ℚ)
    (t : TextPair) : Except String (Bool × Bool) := do
  let counts_p ← count_mode bigrams t.plaintext
  let entropy_plain ← entropy_calculate log2f counts_p
  let counts_c ← count_mode bigrams t.ciphertext
  let entropy_cipher ← entropy_calculate log2f counts_c
  pure (decide (kH_curr < |entropy_plain - H_curr|),
    decide (kH_curr < |entropy_cipher - H_curr|))

/-- Embedding of `criteria.py: criteria_3_0(generated_texts, H, kH,
bigrams)`; `log2f` abstracts `math.log2` as in `entropy_calculate`. -/
def criteria_3_0 (log2f : ℚ → ℚ)
    (generated_texts : List (ℕ × List TextPair))
    (H kH : ℚ ⊕ List (ℕ × ℚ)) (bigrams : Bool) :
    Except String (List (ℕ × (ℕ × ℕ))) :=
  generated_texts.mapM (fun e => do
    let H_curr ← scalar_or_dict_get H e.1
    let kH_curr ← scalar_or_dict_get kH e.1
    let flags ← e.2.mapM (text_flags_3_0 log2f bigrams H_curr kH_curr)
    pure (e.1,
      (flags.countP (fun f => f.1), flags.countP (fun f => f.2))))

/-- Relational lifting through `mapM` over `Except`: if `f` and `g` fail
identically or succeed with `R`-related values on every element, the two
`mapM` runs fail identically or succeed with `Forall₂ R`-related lists. -/
theorem mapM_rel {α β : Type} (f g : α → Except String β) (R : β → β → Prop)
    (l : List α)
    (h : ∀ a ∈ l, (∃ m, f a = .error m ∧ g a = .error m) ∨
      ∃ b b', f a = .ok b ∧ g a = .ok b' ∧ R b b') :
    (∃ m, l.mapM f = .error m ∧ l.mapM g = .error m) ∨
      ∃ bs bs', l.mapM f = .ok bs ∧ l.mapM g = .ok bs' ∧
        List.Forall₂ R bs bs' := by
  induction l with
  | nil => exact .inr ⟨[], [], rfl, rfl, .nil⟩
  | cons a tl ih =>
    rcases h a (List.mem_cons_self a tl) with ⟨m, hf, hg⟩ | ⟨b, b', hf, hg, hR⟩
    · left
      exact ⟨m, by rw [List.mapM_cons, hf, error_bind],
        by rw [List.mapM_cons, hg, error_bind]⟩
    · rcases ih (fun x hx => h x (List.mem_cons_of_mem a hx)) with
        ⟨m, hf2, hg2⟩ | ⟨bs, bs', hf2, hg2, hR2⟩
      · left
        refine ⟨m, ?_, ?_⟩
        · rw [List.mapM_cons, hf, ok_bind, hf2, error_bind]
        · rw [List.mapM_cons, hg, ok_bind, hg2, error_bind]
      · right
        refine ⟨b :: bs, b' :: bs', ?_, ?_, .cons hR hR2⟩
        · rw [List.mapM_cons, hf, ok_bind, hf2, ok_bind]
          rfl
        · rw [List.mapM_cons, hg, ok_bind, hg2, ok_bind]
          rfl

/-- `countP` is antitone along a `Forall₂` pointwise implication. -/
theorem countP_le_forall₂ {α : Type} (p : α → Bool) {l l' : List α}
    (h : List.Forall₂ (fun a b => p b = true → p a = true) l l') :
    l'.countP p ≤ l.countP p := by
  induction h with
  | nil => exact le_refl 0
  | @cons a b as bs hab htl ih =>
    rw [List.countP_cons, List.countP_cons]
    have hcases : (if p b = true then (1 : ℕ) else 0) ≤
        if p a = true then 1 else 0 := by
      by_cases hb : p b = true
      · rw [if_pos hb, if_pos (hab hb)]
      · rw [if_neg hb]
        exact Nat.zero_le _
    omega

/-- Raising the entropy tolerance can only turn per-text H1 flags off;
errors are unaffected. -/
theorem text_flags_mono (log2f : ℚ → ℚ) (bigrams : Bool) (H_curr k k' : ℚ)
    (hk : k ≤ k') (t : TextPair) :
    (∃ m, text_flags_3_0 log2f bigrams H_curr k t = .error m ∧
      text_flags_3_0 log2f bigrams H_curr k' t = .error m) ∨
    ∃ b b', text_flags_3_0 log2f bigrams H_curr k t = .ok b ∧
      text_flags_3_0 log2f bigrams H_curr k' t = .ok b' ∧
      (b'.1 = true → b.1 = true) ∧ (b'.2 = true → b.2 = true) := by
  unfold text_flags_3_0
  cases hcp : count_mode bigrams t.plaintext with
  | error m => exact .inl ⟨m, rfl, rfl⟩
  | ok cp =>
    rw [ok_bind, ok_bind]
    cases hep : entropy_calculate log2f cp with
    | error m => exact .inl ⟨m, rfl, rfl⟩
    | ok ep =>
      rw [ok_bind, ok_bind]
      cases hcc : count_mode bigrams t.ciphertext with
      | error m => exact .inl ⟨m, rfl, rfl⟩
      | ok cc =>
        rw [ok_bind, ok_bind]
        cases hec : entropy_calculate log2f cc with
        | error m => exact .inl ⟨m, rfl, rfl⟩
        | ok ec =>
          rw [ok_bind, ok_bind]
          refine .inr ⟨_, _, rfl, rfl, ?_, ?_⟩
          · intro hb
            have h1 : k' < |ep - H_curr| := of_decide_eq_true hb
            exact decide_eq_true (lt_of_le_of_lt hk h1)
          · intro hb
            have h1 : k' < |ec - H_curr| := of_decide_eq_true hb
            exact decide_eq_true (lt_of_le_of_lt hk h1)

/-- Claim C7: raising `kp` (criterion 1.1), `kempt` (criterion 5.1), or the
scalar `kH` (criterion 3.0) never increases any per-length H1-acceptance
count, for plaintexts or ciphertexts; for criterion 3.0 the two runs also
fail with identical errors when they fail. -/
theorem C7_monotonicity (generated_texts : List (ℕ × List TextPair))
    (forbidden_symbols : List Char)
    (forbidden_bigrams : Option (List (List Char))) (kp kp' : ℤ)
    (j : ℕ) (kempt kempt' : ℤ) (symbols_frequency : List (Char × ℚ))
    (bigrams_frequency : List (List Char × ℚ)) (log2f : ℚ → ℚ)
    (H : ℚ ⊕ List (ℕ × ℚ)) (bigrams : Bool) (kH kH' : ℚ) :
    (kp ≤ kp' → List.Forall₂
      (fun a b : ℕ × (ℕ × ℕ) => a.1 = b.1 ∧ b.2.1 ≤ a.2.1 ∧ b.2.2 ≤ a.2.2)
      (criteria_1_1 generated_texts kp forbidden_symbols forbidden_bigrams)
      (criteria_1_1 generated_texts kp' forbidden_symbols
        forbidden_bigrams)) ∧
    (kempt ≤ kempt' → List.Forall₂
      (fun a b : ℕ × (ℕ × ℕ) => a.1 = b.1 ∧ b.2.1 ≤ a.2.1 ∧ b.2.2 ≤ a.2.2)
      (criteria_5_1 generated_texts j kempt symbols_frequency
        bigrams_frequency)
      (criteria_5_1 generated_texts j kempt' symbols_frequency
        bigrams_frequency)) ∧
    (kH ≤ kH' →
      (∃ m,
        criteria_3_0 log2f generated_texts H (.inl kH) bigrams = .error m ∧
        criteria_3_0 log2f generated_texts H (.inl kH') bigrams =
          .error m) ∨
      ∃ rs rs',
        criteria_3_0 log2f generated_texts H (.inl kH) bigrams = .ok rs ∧
        criteria_3_0 log2f generated_texts H (.inl kH') bigrams = .ok rs' ∧
        List.Forall₂
          (fun a b : ℕ × (ℕ × ℕ) =>
            a.1 = b.1 ∧ b.2.1 ≤ a.2.1 ∧ b.2.2 ≤ a.2.2) rs rs') := by
  refine ⟨?_, ?_, ?_⟩
  · intro hk
    unfold criteria_1_1
    induction generated_texts with
    | nil => exact .nil
    | cons e tl ih =>
      rw [List.map_cons, List.map_cons]
      refine .cons ⟨rfl, ?_, ?_⟩ ih
      · refine List.countP_mono_left fun t _ ht => ?_
        exact decide_eq_true (le_trans hk (of_decide_eq_true ht))
      · refine List.countP_mono_left fun t _ ht => ?_
        exact decide_eq_true (le_trans hk (of_decide_eq_true ht))
  · intro hk
    unfold criteria_5_1
    induction generated_texts with
    | nil => exact .nil
    | cons e tl ih =>
      rw [List.map_cons, List.map_cons]
      refine .cons ⟨rfl, ?_, ?_⟩ ih
      · refine List.countP_mono_left fun t _ ht => ?_
        exact decide_eq_true (le_trans hk (of_decide_eq_true ht))
      · refine List.countP_mono_left fun t _ ht => ?_
        exact decide_eq_true (le_trans hk (of_decide_eq_true ht))
  · intro hk
    unfold criteria_3_0
    refine mapM_rel _ _ _ _ fun e _ => ?_
    cases hH : scalar_or_dict_get H e.1 with
    | error m => exact .inl ⟨m, rfl, rfl⟩
    | ok Hc =>
      rw [ok_bind, ok_bind]
      have hkc : scalar_or_dict_get (Sum.inl kH) e.1 = .ok kH := rfl
      have hkc2 : scalar_or_dict_get (Sum.inl kH') e.1 = .ok kH' := rfl
      rw [hkc, hkc2, ok_bind, ok_bind]
      rcases mapM_rel (text_flags_3_0 log2f bigrams Hc kH)
          (text_flags_3_0 log2f bigrams Hc kH')
          (fun b b' => (b'.1 = true → b.1 = true) ∧
            (b'.2 = true → b.2 = true))
          e.2 (fun t _ => text_flags_mono log2f bigrams Hc kH kH' hk t) with
        ⟨m, h1, h2⟩ | ⟨bs, bs2, h1, h2, hF⟩
      · exact .inl ⟨m, by rw [h1, error_bind], by rw [h2, error_bind]⟩
      · rw [h1, ok_bind, h2, ok_bind]
        refine .inr ⟨_, _, rfl, rfl, rfl, ?_, ?_⟩
        · exact countP_le_forall₂ _ (hF.imp fun a b hab => hab.1)
        · exact countP_le_forall₂ _ (hF.imp fun a b hab => hab.2)

/-- Witness for C7: the three monotonicity statements applied to a concrete
one-pair corpus with thresholds raised from `0` to `1`. -/
theorem C7_monotonicity_witness :
    List.Forall₂
      (fun a b : ℕ × (ℕ × ℕ) => a.1 = b.1 ∧ b.2.1 ≤ a.2.1 ∧ b.2.2 ≤ a.2.2)
      (criteria_1_1 [(1, [⟨['a'], ['a']⟩])] 0 ['a'] none)
      (criteria_1_1 [(1, [⟨['a'], ['a']⟩])] 1 ['a'] none) ∧
    List.Forall₂
      (fun a b : ℕ × (ℕ × ℕ) => a.1 = b.1 ∧ b.2.1 ≤ a.2.1 ∧ b.2.2 ≤ a.2.2)
      (criteria_5_1 [(1, [⟨['a'], ['a']⟩])] 1 0 [('a', 1)] [])
      (criteria_5_1 [(1, [⟨['a'], ['a']⟩])] 1 1 [('a', 1)] []) ∧
    ((∃ m,
        criteria_3_0 (fun q => q) [(1, [⟨['a'], ['a']⟩])] (.inl 0) (.inl 0)
          false = .error m ∧
        criteria_3_0 (fun q => q) [(1, [⟨['a'], ['a']⟩])] (.inl 0) (.inl 1)
          false = .error m) ∨
      ∃ rs rs2,
        criteria_3_0 (fun q => q) [(1, [⟨['a'], ['a']⟩])] (.inl 0) (.inl 0)
          false = .ok rs ∧
        criteria_3_0 (fun q => q) [(1, [⟨['a'], ['a']⟩])] (.inl 0) (.inl 1)
          false = .ok rs2 ∧
        List.Forall₂
          (fun a b : ℕ × (ℕ × ℕ) =>
            a.1 = b.1 ∧ b.2.1 ≤ a.2.1 ∧ b.2.2 ≤ a.2.2) rs rs2) :=
  ⟨(C7_monotonicity [(1, [⟨['a'], ['a']⟩])] ['a'] none 0 1 1 0 1 [('a', 1)]
      [] (fun q => q) (.inl 0) false 0 1).1 (by decide),
   (C7_monotonicity [(1, [⟨['a'], ['a']⟩])] ['a'] none 0 1 1 0 1 [('a', 1)]
      [] (fun q => q) (.inl 0) false 0 1).2.1 (by decide),
   (C7_monotonicity [(1, [⟨['a'], ['a']⟩])] ['a'] none 0 1 1 0 1 [('a', 1)]
      [] (fun q => q) (.inl 0) false 0 1).2.2 (by norm_num)⟩
